import Mathlib

/-!
Verification of the kueue pending-workload queueing core against its
specification.  The Go sources are shallowly embedded: Go maps become
association lists (or functions to `Option`), Go int64 arithmetic becomes
`Int`, and the `container/heap` loops become fuel-bounded structural
recursion with provably sufficient fuel.
-/

namespace Kueue

/-- Generic assignment on a string-or-other-keyed map embedded as an
association list: replaces the value of the first matching key, appends the
binding otherwise.  This is the embedding of a Go map assignment. -/
def mapSet {κ β : Type} [DecidableEq κ] : List (κ × β) → κ → β → List (κ × β)
  | [], k, v => [(k, v)]
  | (m, w) :: rest, k, v =>
    if m = k then (m, v) :: rest else (m, w) :: mapSet rest k v

theorem lookup_mapSet {κ β : Type} [DecidableEq κ]
    (l : List (κ × β)) (k n : κ) (v : β) :
    (mapSet l k v).lookup n = if n = k then some v else l.lookup n := by
  induction l with
  | nil =>
    by_cases h : n = k
    · simp [mapSet, List.lookup, h]
    · simp [mapSet, List.lookup, h, beq_eq_false_iff_ne.mpr h]
  | cons p rest ih =>
    obtain ⟨m, w⟩ := p
    by_cases hmk : m = k
    · subst hmk
      by_cases hnm : n = m
      · simp [mapSet, List.lookup, hnm]
      · simp [mapSet, List.lookup, hnm, beq_eq_false_iff_ne.mpr hnm]
    · by_cases hnm : n = m
      · subst hnm
        have hnk : ¬ n = k := hmk
        simp [mapSet, hmk, List.lookup, hnk, beq_iff_eq]
      · simp [mapSet, hmk, List.lookup, hnm, beq_eq_false_iff_ne.mpr hnm, ih]

/-- Modelled from the k8s apimachinery resource.Quantity semantics: a
quantity holds an exact milli-unit integer; `milliValue` returns it and
`value` rounds up to whole units. -/
structure Quantity where
  milli : Int
deriving DecidableEq

def Quantity.milliValue (q : Quantity) : Int := q.milli

def Quantity.value (q : Quantity) : Int := Int.ediv (q.milli + 999) 1000

abbrev ResourceName := String

/-- Embedding of corev1.ResourceList: a map from resource name to quantity. -/
abbrev ResourceList := List (ResourceName × Quantity)

/-- ResourceValue returns the integer value for the resource name:
milli-units for CPU and absolute units for everything else. -/
def ResourceValue (name : ResourceName) (q : Quantity) : Int :=
  if name = "cpu" then q.milliValue else q.value

/-- Embedding of the workload package Requests map: ResourceName to int64,
CPU tracked in MilliCPU. -/
abbrev Requests := List (ResourceName × Int)

/-- Reading a key of a Go map: the zero value 0 when the key is absent. -/
def Requests.get (r : Requests) (n : ResourceName) : Int :=
  match r.lookup n with
  | some v => v
  | none => 0

def Requests.add (r o : Requests) : Requests :=
  o.foldl (fun acc p => mapSet acc p.1 (acc.get p.1 + p.2)) r

def Requests.setMax (r o : Requests) : Requests :=
  o.foldl (fun acc p => mapSet acc p.1 (max (acc.get p.1) p.2)) r

def Requests.scale (r : Requests) (f : Int) : Requests :=
  r.map (fun p => (p.1, p.2 * f))

def newRequests (rl : ResourceList) : Requests :=
  rl.foldl (fun acc p => mapSet acc p.1 (ResourceValue p.1 p.2)) []

structure ResourceRequirements where
  requests : ResourceList
deriving DecidableEq

structure Container where
  resources : ResourceRequirements
deriving DecidableEq

/-- Embedding of the corev1.PodSpec fields used by the calculator:
containers, init containers and pod overhead. -/
structure PodSpec where
  containers : List Container
  initContainers : List Container
  overhead : ResourceList
deriving DecidableEq

/-- Modelled from the spec: one pod-group of a workload, with its pod
template and replica count (the kueue api PodSet type is not under the
provided sources). -/
structure PodSet where
  name : String
  spec : PodSpec
  count : Int
deriving DecidableEq

/-- Modelled from the spec: the admission binding of one pod-group, mapping
resource names to the flavor they were bound to. -/
structure PodSetFlavors where
  name : String
  flavors : List (ResourceName × String)
deriving DecidableEq

structure Admission where
  podSetFlavors : List PodSetFlavors
deriving DecidableEq

/-- Modelled from the spec: the workload specification fields consumed by
the core (pod-groups, queue name, optional admission binding, numeric
priority). -/
structure QueuedWorkloadSpec where
  podSets : List PodSet
  queueName : String
  admission : Option Admission
  priority : Int
deriving DecidableEq

/-- Modelled from the spec: a raw workload exposing a namespace+name
identity, a creation timestamp and its spec.  The field `ns` embeds the
object namespace. -/
structure QueuedWorkload where
  ns : String
  name : String
  creationTimestamp : Int
  spec : QueuedWorkloadSpec
deriving DecidableEq

structure PodSetResources where
  name : String
  requests : Requests
  flavors : List (ResourceName × String)
deriving DecidableEq

/-- Info holds a QueuedWorkload object and some pre-processing. -/
structure Info where
  obj : QueuedWorkload
  totalRequests : List PodSetResources
  clusterQueue : String
deriving DecidableEq

/-- Key is the key used to index workloads: namespace slash name. -/
def Key (w : QueuedWorkload) : String := w.ns ++ "/" ++ w.name

def podRequests (spec : PodSpec) : Requests :=
  let res0 : Requests := []
  let res1 := spec.containers.foldl
    (fun r c => r.add (newRequests c.resources.requests)) res0
  let res2 := spec.initContainers.foldl
    (fun r c => r.setMax (newRequests c.resources.requests)) res1
  res2.add (newRequests spec.overhead)

def totalRequests (spec : QueuedWorkloadSpec) : List PodSetResources :=
  if spec.podSets.isEmpty then []
  else
    let podSetFlavors : List (String × List (ResourceName × String)) :=
      match spec.admission with
      | none => []
      | some adm => adm.podSetFlavors.foldl (fun m ps => mapSet m ps.name ps.flavors) []
    spec.podSets.map (fun ps =>
      { name := ps.name
        requests := (podRequests ps.spec).scale ps.count
        flavors := (podSetFlavors.lookup ps.name).getD [] })

def NewInfo (w : QueuedWorkload) : Info :=
  { obj := w, totalRequests := totalRequests w.spec, clusterQueue := "" }

/-- Modelled from the spec: the numeric priority exposed by every workload
(the util/priority package is not part of the provided sources). -/
def Priority (w : QueuedWorkload) : Int := w.spec.priority

/-- strictFIFO sorts workloads based on their priority; when priorities are
equal it uses the creation timestamp (strictly earlier sorts first). -/
def strictFIFO (a b : Info) : Bool :=
  let p1 := Priority a.obj
  let p2 := Priority b.obj
  if p1 ≠ p2 then decide (p1 > p2)
  else decide (a.obj.creationTimestamp < b.obj.creationTimestamp)

/-! ## Value-level lemmas about the Requests map operations -/

/-- Sum of the values that a list of bindings contributes to one key. -/
def sumKey (o : List (ResourceName × Int)) (n : ResourceName) : Int :=
  ((o.filter (fun p => p.1 = n)).map Prod.snd).sum

/-- Reading a resource list at a name through ResourceValue, 0 when absent. -/
def lookupRV (rl : ResourceList) (n : ResourceName) : Int :=
  match rl.lookup n with
  | some q => ResourceValue n q
  | none => 0

theorem Requests.get_mapSet (r : Requests) (k n : ResourceName) (v : Int) :
    Requests.get (mapSet r k v) n = if n = k then v else r.get n := by
  unfold Requests.get
  rw [lookup_mapSet]
  by_cases h : n = k <;> simp [h]

theorem Requests.get_eq_zero_of_not_mem (r : Requests) (n : ResourceName)
    (h : n ∉ r.map Prod.fst) : r.get n = 0 := by
  induction r with
  | nil => rfl
  | cons p rest ih =>
    simp only [List.map_cons, List.mem_cons, not_or] at h
    have h1 : ¬ n = p.1 := h.1
    have e : Requests.get (p :: rest) n = Requests.get rest n := by
      simp [Requests.get, List.lookup, beq_eq_false_iff_ne.mpr h1]
    rw [e]
    exact ih h.2

theorem sumKey_eq_zero_of_not_mem (o : List (ResourceName × Int))
    (n : ResourceName) (h : n ∉ o.map Prod.fst) : sumKey o n = 0 := by
  induction o with
  | nil => rfl
  | cons p rest ih =>
    simp only [List.map_cons, List.mem_cons, not_or] at h
    have hne : ¬ p.1 = n := fun hh => h.1 hh.symm
    have e : sumKey (p :: rest) n = sumKey rest n := by
      simp [sumKey, List.filter_cons, hne]
    rw [e]
    exact ih h.2

theorem Requests.get_add (o : List (ResourceName × Int)) :
    ∀ (r : Requests) (n : ResourceName),
      Requests.get (Requests.add r o) n = r.get n + sumKey o n := by
  induction o with
  | nil =>
    intro r n
    simp [Requests.add, sumKey]
  | cons p o' ih =>
    intro r n
    have step : Requests.add r (p :: o') =
        Requests.add (mapSet r p.1 (r.get p.1 + p.2)) o' := rfl
    rw [step, ih]
    by_cases h : n = p.1
    · subst h
      simp [Requests.get_mapSet, sumKey, List.filter]
      ring
    · have hne : ¬ p.1 = n := fun hh => h hh.symm
      simp [Requests.get_mapSet, h, sumKey, List.filter, hne]

theorem mapSet_of_not_mem {κ β : Type} [DecidableEq κ]
    (l : List (κ × β)) (k : κ) (v : β) (h : k ∉ l.map Prod.fst) :
    mapSet l k v = l ++ [(k, v)] := by
  induction l with
  | nil => rfl
  | cons p rest ih =>
    simp only [List.map_cons, List.mem_cons, not_or] at h
    have : ¬ p.1 = k := fun hh => h.1 hh.symm
    simp [mapSet, this]
    exact ih h.2

theorem newRequests_aux (rl : ResourceList)
    (h : (rl.map Prod.fst).Nodup) :
    ∀ acc : Requests, (∀ k ∈ rl.map Prod.fst, k ∉ acc.map Prod.fst) →
      rl.foldl (fun acc p => mapSet acc p.1 (ResourceValue p.1 p.2)) acc =
        acc ++ rl.map (fun p => (p.1, ResourceValue p.1 p.2)) := by
  induction rl with
  | nil =>
    intro acc _
    simp
  | cons p rl' ih =>
    intro acc hd
    simp only [List.map_cons, List.nodup_cons] at h
    have hp : p.1 ∉ acc.map Prod.fst := hd p.1 (by simp)
    have step : (p :: rl').foldl
        (fun acc q => mapSet acc q.1 (ResourceValue q.1 q.2)) acc =
        rl'.foldl (fun acc q => mapSet acc q.1 (ResourceValue q.1 q.2))
          (mapSet acc p.1 (ResourceValue p.1 p.2)) := rfl
    rw [step, mapSet_of_not_mem _ _ _ hp, ih h.2]
    · simp
    · intro k hk
      simp only [List.map_append, List.mem_append]
      rintro (hka | hka)
      · exact hd k (by simp [hk]) hka
      · simp at hka
        exact h.1 (hka ▸ hk)

theorem newRequests_eq_map (rl : ResourceList)
    (h : (rl.map Prod.fst).Nodup) :
    newRequests rl = rl.map (fun p => (p.1, ResourceValue p.1 p.2)) := by
  have := newRequests_aux rl h [] (by simp)
  simpa [newRequests] using this

theorem newRequests_keys (rl : ResourceList)
    (h : (rl.map Prod.fst).Nodup) :
    (newRequests rl).map Prod.fst = rl.map Prod.fst := by
  rw [newRequests_eq_map rl h]
  simp

theorem get_map_RV (rl : ResourceList) (n : ResourceName) :
    Requests.get (rl.map (fun p => (p.1, ResourceValue p.1 p.2))) n =
      lookupRV rl n := by
  induction rl with
  | nil => rfl
  | cons p rest ih =>
    by_cases h : n = p.1
    · subst h
      simp [Requests.get, lookupRV, List.lookup, List.map_cons]
    · simp [Requests.get, lookupRV, List.lookup, List.map_cons,
        beq_eq_false_iff_ne.mpr h] at ih ⊢
      exact ih

theorem newRequests_get (rl : ResourceList)
    (h : (rl.map Prod.fst).Nodup) (n : ResourceName) :
    (newRequests rl).get n = lookupRV rl n := by
  rw [newRequests_eq_map rl h, get_map_RV]

theorem sumKey_map_RV (rl : ResourceList)
    (h : (rl.map Prod.fst).Nodup) (n : ResourceName) :
    sumKey (rl.map (fun p => (p.1, ResourceValue p.1 p.2))) n =
      lookupRV rl n := by
  induction rl with
  | nil => rfl
  | cons p rest ih =>
    simp only [List.map_cons, List.nodup_cons] at h
    by_cases hn : p.1 = n
    · subst hn
      have hrest : p.1 ∉ (rest.map (fun q => (q.1, ResourceValue q.1 q.2))).map Prod.fst := by
        simpa using h.1
      simp [sumKey, List.filter, lookupRV, List.lookup,
        sumKey_eq_zero_of_not_mem _ _ hrest] at ih ⊢
      have := sumKey_eq_zero_of_not_mem
        (rest.map (fun q => (q.1, ResourceValue q.1 q.2))) p.1 hrest
      simp [sumKey] at this
      simp [this]
    · have hne : ¬ n = p.1 := fun hh => hn hh.symm
      simp [sumKey, List.filter, hn, lookupRV, List.lookup,
        beq_eq_false_iff_ne.mpr hne] at ih ⊢
      exact ih h.2

theorem newRequests_sumKey (rl : ResourceList)
    (h : (rl.map Prod.fst).Nodup) (n : ResourceName) :
    sumKey (newRequests rl) n = lookupRV rl n := by
  rw [newRequests_eq_map rl h, sumKey_map_RV rl h]

theorem lookupRV_nonneg (rl : ResourceList)
    (h : ∀ p ∈ rl, 0 ≤ ResourceValue p.1 p.2) (n : ResourceName) :
    0 ≤ lookupRV rl n := by
  induction rl with
  | nil => simp [lookupRV]
  | cons p rest ih =>
    by_cases hn : n = p.1
    · have e : lookupRV (p :: rest) n = ResourceValue n p.2 := by
        simp [lookupRV, List.lookup, hn]
      rw [e, hn]
      exact h p (by simp)
    · have e : lookupRV (p :: rest) n = lookupRV rest n := by
        simp [lookupRV, List.lookup, beq_eq_false_iff_ne.mpr hn]
      rw [e]
      exact ih (fun q hq => h q (List.mem_cons_of_mem _ hq))

theorem Requests.get_setMax (o : List (ResourceName × Int)) :
    ∀ (r : Requests) (n : ResourceName), 0 ≤ r.get n →
      (o.map Prod.fst).Nodup →
      Requests.get (Requests.setMax r o) n = max (r.get n) (Requests.get o n) := by
  induction o with
  | nil =>
    intro r n hr _
    have e0 : Requests.get ([] : Requests) n = 0 := rfl
    have e1 : Requests.setMax r [] = r := rfl
    rw [e1, e0]
    omega
  | cons p o' ih =>
    intro r n hr hnd
    simp only [List.map_cons, List.nodup_cons] at hnd
    have step : Requests.setMax r (p :: o') =
        Requests.setMax (mapSet r p.1 (max (r.get p.1) p.2)) o' := rfl
    rw [step]
    by_cases h : n = p.1
    · have hnot : n ∉ o'.map Prod.fst := by rw [h]; exact hnd.1
      have hget : Requests.get (mapSet r p.1 (max (r.get p.1) p.2)) n =
          max (r.get n) p.2 := by
        rw [Requests.get_mapSet, if_pos h, h]
      rw [ih _ _ (by rw [hget]; omega) hnd.2, hget,
        Requests.get_eq_zero_of_not_mem o' n hnot]
      have egoal : Requests.get (p :: o') n = p.2 := by
        simp [Requests.get, List.lookup, h]
      rw [egoal]
      omega
    · have hget : Requests.get (mapSet r p.1 (max (r.get p.1) p.2)) n =
          r.get n := by rw [Requests.get_mapSet, if_neg h]
      rw [ih _ _ (by rw [hget]; exact hr) hnd.2, hget]
      have egoal : Requests.get (p :: o') n = Requests.get o' n := by
        simp [Requests.get, List.lookup, beq_eq_false_iff_ne.mpr h]
      rw [egoal]

/-! ## Specification-side demand formula (refinement target for C2) -/

/-- The request of one container for one resource, as the spec reads it. -/
def containerRequest (c : Container) (n : ResourceName) : Int :=
  lookupRV c.resources.requests n

/-- Demand formula written as the specification text states it: per
resource, the regular-container sum is max-merged with the per-resource
maximum across init containers, then the pod overhead is added.  This
definition follows the spec wording and is compared against the source
calculator `podRequests`. -/
def specPodDemand (spec : PodSpec) (n : ResourceName) : Int :=
  max ((spec.containers.map (fun c => containerRequest c n)).sum)
      ((spec.initContainers.map (fun c => containerRequest c n)).foldr max 0)
    + lookupRV spec.overhead n

/-- Well-formedness of an embedded resource map: unique keys (it embeds a
Go map) and nonnegative values (the spec invariant that requests are
always at least 0). -/
abbrev WFResourceList (rl : ResourceList) : Prop :=
  (rl.map Prod.fst).Nodup ∧ ∀ p ∈ rl, 0 ≤ ResourceValue p.1 p.2

abbrev WFPodSpec (spec : PodSpec) : Prop :=
  (∀ c ∈ spec.containers, WFResourceList c.resources.requests) ∧
  (∀ c ∈ spec.initContainers, WFResourceList c.resources.requests) ∧
  WFResourceList spec.overhead

theorem containers_fold_get (cs : List Container) :
    ∀ (r : Requests) (n : ResourceName),
      (∀ c ∈ cs, WFResourceList c.resources.requests) →
      Requests.get
        (cs.foldl (fun r c => r.add (newRequests c.resources.requests)) r) n =
        r.get n + (cs.map (fun c => containerRequest c n)).sum := by
  induction cs with
  | nil =>
    intro r n _
    simp
  | cons c cs' ih =>
    intro r n hwf
    have step : (c :: cs').foldl
        (fun r c => r.add (newRequests c.resources.requests)) r =
        cs'.foldl (fun r c => r.add (newRequests c.resources.requests))
          (r.add (newRequests c.resources.requests)) := rfl
    rw [step, ih _ _ (fun c hc => hwf c (by simp [hc])), Requests.get_add,
      newRequests_sumKey _ (hwf c (by simp)).1]
    simp [containerRequest]
    ring

theorem inits_fold_get (is : List Container) :
    ∀ (r : Requests) (n : ResourceName), 0 ≤ r.get n →
      (∀ c ∈ is, WFResourceList c.resources.requests) →
      Requests.get
        (is.foldl (fun r c => r.setMax (newRequests c.resources.requests)) r) n =
        max (r.get n) ((is.map (fun c => containerRequest c n)).foldr max 0) := by
  induction is with
  | nil =>
    intro r n hr _
    simp
    omega
  | cons c is' ih =>
    intro r n hr hwf
    have hc := hwf c (by simp)
    have step : (c :: is').foldl
        (fun r c => r.setMax (newRequests c.resources.requests)) r =
        is'.foldl (fun r c => r.setMax (newRequests c.resources.requests))
          (r.setMax (newRequests c.resources.requests)) := rfl
    have hkeys : ((newRequests c.resources.requests).map Prod.fst).Nodup := by
      rw [newRequests_keys _ hc.1]; exact hc.1
    have hstep := Requests.get_setMax (newRequests c.resources.requests) r n hr hkeys
    rw [step, ih _ _ (by rw [hstep]; exact le_max_of_le_left hr)
        (fun d hd => hwf d (by simp [hd])), hstep,
      newRequests_get _ hc.1]
    simp [containerRequest]
    omega

theorem podRequests_get (spec : PodSpec) (hwf : WFPodSpec spec)
    (n : ResourceName) :
    (podRequests spec).get n = specPodDemand spec n := by
  obtain ⟨hc, hi, hov⟩ := hwf
  have hsum_nonneg : 0 ≤ ((spec.containers.map (fun c => containerRequest c n)).sum) := by
    apply List.sum_nonneg
    intro x hx
    simp only [List.mem_map] at hx
    obtain ⟨c, hc', rfl⟩ := hx
    exact lookupRV_nonneg _ (hc c hc').2 n
  have h1 := containers_fold_get spec.containers [] n hc
  simp only [Requests.get, List.lookup] at h1
  have h1' : Requests.get
      (spec.containers.foldl (fun r c => r.add (newRequests c.resources.requests)) []) n =
      (spec.containers.map (fun c => containerRequest c n)).sum := by
    rw [containers_fold_get spec.containers [] n hc]
    simp [Requests.get, List.lookup]
  have h2 := inits_fold_get spec.initContainers _ n (by rw [h1']; exact hsum_nonneg) hi
  unfold podRequests
  rw [Requests.get_add, newRequests_sumKey _ hov.1, h2, h1']
  rfl

theorem Requests.get_scale (r : Requests) (f : Int) (n : ResourceName) :
    (r.scale f).get n = r.get n * f := by
  induction r with
  | nil => simp [Requests.scale, Requests.get, List.lookup]
  | cons p rest ih =>
    by_cases h : n = p.1
    · subst h
      simp [Requests.scale, Requests.get, List.lookup]
    · simp [Requests.scale, Requests.get, List.lookup,
        beq_eq_false_iff_ne.mpr h] at ih ⊢
      exact ih

/-! ## Claim C2 -/

/-- C2: for every pod-group specification, per-pod demand is the
container sum max-merged per resource with the init containers, plus the
pod overhead, every quantity then multiplied by the replica count by exact
integer multiplication. -/
theorem c2_per_pod_demand (wspec : QueuedWorkloadSpec)
    (hwf : ∀ ps ∈ wspec.podSets, WFPodSpec ps.spec) :
    (totalRequests wspec).length = wspec.podSets.length ∧
    ∀ (i : Nat) (r : PodSetResources) (ps : PodSet),
      (totalRequests wspec)[i]? = some r → wspec.podSets[i]? = some ps →
      ∀ n : ResourceName,
        r.requests.get n = specPodDemand ps.spec n * ps.count := by
  unfold totalRequests
  by_cases hempty : wspec.podSets.isEmpty = true
  · rw [List.isEmpty_iff] at hempty
    rw [hempty]
    refine ⟨by simp, ?_⟩
    intro i r ps h1 h2
    simp at h2
  · rw [if_neg hempty]
    refine ⟨by simp, ?_⟩
    intro i r ps h1 h2
    rw [List.getElem?_map, h2] at h1
    simp only [Option.map_some'] at h1
    rw [Option.some_inj] at h1
    intro n
    have hps : ps ∈ wspec.podSets := List.getElem?_mem h2
    rw [← h1]
    simp only
    rw [Requests.get_scale, podRequests_get ps.spec (hwf ps hps) n]

/-- Witness for C2 at a concrete pod-group: two containers (CPU 100m and
200m), one init container (CPU 500m), overhead 50m, replica count 2. -/
theorem c2_per_pod_demand_witness :
    (∀ ps ∈ (QueuedWorkloadSpec.mk
        [PodSet.mk "main"
          (PodSpec.mk [Container.mk ⟨[("cpu", ⟨100⟩)]⟩, Container.mk ⟨[("cpu", ⟨200⟩)]⟩]
            [Container.mk ⟨[("cpu", ⟨500⟩)]⟩] [("cpu", ⟨50⟩)]) 2]
        "q" none 0).podSets, WFPodSpec ps.spec) ∧
    ((totalRequests (QueuedWorkloadSpec.mk
        [PodSet.mk "main"
          (PodSpec.mk [Container.mk ⟨[("cpu", ⟨100⟩)]⟩, Container.mk ⟨[("cpu", ⟨200⟩)]⟩]
            [Container.mk ⟨[("cpu", ⟨500⟩)]⟩] [("cpu", ⟨50⟩)]) 2]
        "q" none 0)).length = 1 ∧
      ∀ (i : Nat) (r : PodSetResources) (ps : PodSet),
        (totalRequests (QueuedWorkloadSpec.mk
          [PodSet.mk "main"
            (PodSpec.mk [Container.mk ⟨[("cpu", ⟨100⟩)]⟩, Container.mk ⟨[("cpu", ⟨200⟩)]⟩]
              [Container.mk ⟨[("cpu", ⟨500⟩)]⟩] [("cpu", ⟨50⟩)]) 2]
          "q" none 0))[i]? = some r →
        (QueuedWorkloadSpec.mk
          [PodSet.mk "main"
            (PodSpec.mk [Container.mk ⟨[("cpu", ⟨100⟩)]⟩, Container.mk ⟨[("cpu", ⟨200⟩)]⟩]
              [Container.mk ⟨[("cpu", ⟨500⟩)]⟩] [("cpu", ⟨50⟩)]) 2]
          "q" none 0).podSets[i]? = some ps →
        ∀ n : ResourceName,
          r.requests.get n = specPodDemand ps.spec n * ps.count) := by
  refine ⟨by decide, ?_⟩
  exact c2_per_pod_demand _ (by decide)

/-! ## Claim C1 -/

/-- The pod-group of the C1 scenario: two containers requesting CPU 100m
and 200m, one init container requesting CPU 500m, pod overhead CPU 50m. -/
def c1PodSpec : PodSpec :=
  { containers := [Container.mk ⟨[("cpu", ⟨100⟩)]⟩, Container.mk ⟨[("cpu", ⟨200⟩)]⟩]
    initContainers := [Container.mk ⟨[("cpu", ⟨500⟩)]⟩]
    overhead := [("cpu", ⟨50⟩)] }

/-- The C1 workload spec: one pod-group as above with replica count 2. -/
def c1WorkloadSpec : QueuedWorkloadSpec :=
  { podSets := [PodSet.mk "main" c1PodSpec 2]
    queueName := "q"
    admission := none
    priority := 0 }

/-- C1 counterexample: on the C1 scenario the calculator produces total CPU
1100 milli-units, not the 1000 the claim states, because the pod overhead
is added after the init-container maximum is taken, not before. -/
theorem c1_counterexample :
    (totalRequests c1WorkloadSpec).map (fun r => r.requests.get "cpu") ≠ [1000] ∧
    (totalRequests c1WorkloadSpec).map (fun r => r.requests.get "cpu") = [1100] := by
  constructor
  · decide
  · decide

/-- C1 amended: on the C1 scenario the total CPU demand equals
(max(500, 100+200) + 50) times 2 = 1100 milli-units: the init-container
maximum is taken against the container sum alone, and the pod overhead is
added after that maximum, before scaling by the replica count. -/
theorem c1_total_cpu :
    (totalRequests c1WorkloadSpec).map (fun r => r.requests.get "cpu") =
      [(max 500 (100 + 200) + 50) * 2] := by
  decide

/-! ## Queue (the keyed set) and claim C3 -/

/-- Queue is the internal implementation of kueue.Queue: a keyed set of
workload infos feeding one ClusterQueue. -/
structure Queue where
  clusterQueue : String
  items : List (String × Info)
deriving DecidableEq

/-- AddOrUpdate: when the key exists the stored raw object is replaced in
place (the precomputed totalRequests is kept); otherwise a freshly computed
Info is inserted. -/
def Queue.addOrUpdate (q : Queue) (w : QueuedWorkload) : Queue :=
  let key := Key w
  match q.items.lookup key with
  | some info => { q with items := mapSet q.items key { info with obj := w } }
  | none => { q with items := mapSet q.items key (NewInfo w) }

/-- First version of the C3 workload: one pod-group requesting CPU 1. -/
def c3Workload1 : QueuedWorkload :=
  { ns := "ns", name := "a", creationTimestamp := 0
    spec :=
      { podSets := [PodSet.mk "main"
          (PodSpec.mk [Container.mk ⟨[("cpu", ⟨1000⟩)]⟩] [] []) 1]
        queueName := "q", admission := none, priority := 0 } }

/-- Updated version of the C3 workload: same key, CPU request doubled. -/
def c3Workload2 : QueuedWorkload :=
  { ns := "ns", name := "a", creationTimestamp := 0
    spec :=
      { podSets := [PodSet.mk "main"
          (PodSpec.mk [Container.mk ⟨[("cpu", ⟨2000⟩)]⟩] [] []) 1]
        queueName := "q", admission := none, priority := 0 } }

/-- The queue after adding the first version and then updating with the
second version of the same workload. -/
def c3Queue : Queue :=
  (Queue.addOrUpdate { clusterQueue := "cq", items := [] } c3Workload1).addOrUpdate
    c3Workload2

/-- C3 counterexample: after AddOrUpdate with the updated workload, the
stored totalRequests is still the one computed from the first spec, not
the demand calculator applied to the updated spec. -/
theorem c3_counterexample :
    (c3Queue.items.lookup (Key c3Workload2)).map Info.totalRequests =
      some (totalRequests c3Workload1.spec) ∧
    (c3Queue.items.lookup (Key c3Workload2)).map Info.totalRequests ≠
      some (totalRequests c3Workload2.spec) := by
  constructor
  · decide
  · decide

/-- C3 amended: AddOrUpdate on a key already present replaces only the
stored raw workload object and keeps the previously computed totalRequests;
a fresh Info with recomputed totalRequests is stored only when the key was
absent. -/
theorem c3_addOrUpdate_amended (q : Queue) (w : QueuedWorkload) :
    (∀ info, q.items.lookup (Key w) = some info →
      (q.addOrUpdate w).items.lookup (Key w) = some { info with obj := w }) ∧
    (q.items.lookup (Key w) = none →
      (q.addOrUpdate w).items.lookup (Key w) = some (NewInfo w)) := by
  constructor
  · intro info h
    simp only [Queue.addOrUpdate, h]
    rw [lookup_mapSet]
    simp
  · intro h
    simp only [Queue.addOrUpdate, h]
    rw [lookup_mapSet]
    simp

/-- Witness for C3 amended: the stored object is replaced and the stored
totalRequests kept on the concrete C3 update scenario. -/
theorem c3_addOrUpdate_amended_witness :
    ((Queue.addOrUpdate { clusterQueue := "cq", items := [] } c3Workload1).items.lookup
        (Key c3Workload2) = some (NewInfo c3Workload1)) ∧
    c3Queue.items.lookup (Key c3Workload2) =
      some { NewInfo c3Workload1 with obj := c3Workload2 } := by
  have base : (Queue.addOrUpdate { clusterQueue := "cq", items := [] } c3Workload1).items.lookup
      (Key c3Workload2) = some (NewInfo c3Workload1) := by decide
  refine ⟨base, ?_⟩
  exact (c3_addOrUpdate_amended
    (Queue.addOrUpdate { clusterQueue := "cq", items := [] } c3Workload1)
    c3Workload2).1 (NewInfo c3Workload1) base

/-! ## List-level embedding of the Go container/heap algorithms

The loops of container/heap are embedded as fuel-bounded structural
recursion; every call site passes fuel that provably suffices, so the
functions compute the same lists as the Go loops while remaining
kernel-reducible. -/

section ListHeap

variable {α : Type}

/-- One Swap of the heap interface at the list level. -/
def lswap (d : α) (l : List α) (i j : Nat) : List α :=
  (l.set i (l.getD j d)).set j (l.getD i d)

/-- The sift-up loop of container/heap. -/
def lUpF (lt : α → α → Bool) (d : α) : Nat → List α → Nat → List α
  | 0, l, _ => l
  | fuel+1, l, j =>
    if j = 0 then l
    else
      if lt (l.getD j d) (l.getD ((j-1)/2) d) then
        lUpF lt d fuel (lswap d l ((j-1)/2) j) ((j-1)/2)
      else l

/-- The child of i that container/heap compares against: the right child
when it exists and sorts before the left child, the left child otherwise. -/
def selChild (lt : α → α → Bool) (d : α) (l : List α) (i n : Nat) : Nat :=
  if decide (2*i+2 < n) && lt (l.getD (2*i+2) d) (l.getD (2*i+1) d)
    then 2*i+2 else 2*i+1

/-- The sift-down loop of container/heap; returns the final index with the
list, mirroring the Go return of whether the index moved. -/
def lDownF (lt : α → α → Bool) (d : α) : Nat → List α → Nat → Nat → List α × Nat
  | 0, l, i, _ => (l, i)
  | fuel+1, l, i, n =>
    if 2*i+1 < n then
      if lt (l.getD (selChild lt d l i n) d) (l.getD i d) then
        lDownF lt d fuel (lswap d l i (selChild lt d l i n)) (selChild lt d l i n) n
      else (l, i)
    else (l, i)

/-- Heap ordering restricted to the first n positions: no child sorts
before its parent. -/
def IsHeapN (lt : α → α → Bool) (d : α) (l : List α) (n : Nat) : Prop :=
  ∀ j, 0 < j → j < n → lt (l.getD j d) (l.getD ((j-1)/2) d) = false

/-- The binary-heap ordering invariant of the whole backing list. -/
def IsHeap (lt : α → α → Bool) (d : α) (l : List α) : Prop :=
  IsHeapN lt d l l.length

/-- The comparator facts the heap proofs use: irreflexivity, transitivity
and negative transitivity (a strict weak order given as a Bool relation). -/
structure LtOK (lt : α → α → Bool) : Prop where
  irrefl : ∀ a, lt a a = false
  trans : ∀ a b c, lt a b = true → lt b c = true → lt a c = true
  ntrans : ∀ a b c, lt a b = false → lt b c = false → lt a c = false

theorem LtOK.asymm {lt : α → α → Bool} (h : LtOK lt) {a b : α}
    (hab : lt a b = true) : lt b a = false := by
  cases hba : lt b a with
  | false => rfl
  | true =>
    have := h.trans a b a hab hba
    rw [h.irrefl] at this
    exact absurd this (by simp)

theorem length_lswap (d : α) (l : List α) (i j : Nat) :
    (lswap d l i j).length = l.length := by
  simp [lswap]

theorem set_getD_self (d : α) (l : List α) (i : Nat) (hi : i < l.length) :
    l.set i (l.getD i d) = l := by
  apply List.ext_getElem?
  intro n
  rw [List.getElem?_set]
  split
  · rename_i heq
    subst heq
    simp [hi, List.getD_eq_getElem l d hi]
  · rfl

theorem getD_lswap (d : α) (l : List α) (i j k : Nat)
    (hi : i < l.length) (hj : j < l.length) :
    (lswap d l i j).getD k d =
      if k = j then l.getD i d else if k = i then l.getD j d
      else l.getD k d := by
  unfold lswap
  rw [List.getD_eq_getElem?_getD, List.getElem?_set]
  by_cases hjk : j = k
  · rw [if_pos hjk, if_pos (by simpa using hj)]
    rw [if_pos hjk.symm]
    rfl
  · rw [if_neg hjk, List.getElem?_set]
    by_cases hik : i = k
    · rw [if_pos hik, if_pos hi]
      rw [if_neg (fun hh => hjk hh.symm), if_pos hik.symm]
      rfl
    · rw [if_neg hik, if_neg (fun hh => hjk hh.symm),
        if_neg (fun hh => hik hh.symm), ← List.getD_eq_getElem?_getD]

theorem lswap_self (d : α) (l : List α) (i : Nat) (hi : i < l.length) :
    lswap d l i i = l := by
  unfold lswap
  rw [List.set_set]
  exact set_getD_self d l i hi

theorem count_lswap [DecidableEq α] (d : α) (l : List α) (i j : Nat)
    (hi : i < l.length) (hj : j < l.length) (x : α) :
    (lswap d l i j).count x = l.count x := by
  by_cases hij : i = j
  · rw [hij, lswap_self d l j hj]
  · unfold lswap
    have hgj : l.getD j d = l[j] := List.getD_eq_getElem l d hj
    have hgi : l.getD i d = l[i] := List.getD_eq_getElem l d hi
    have hlen2 : j < (l.set i (l.getD j d)).length := by simpa using hj
    rw [List.count_set _ _ _ _ hlen2, List.count_set _ _ _ _ hi]
    have hval : (l.set i (l.getD j d))[j] = l[j] := by
      rw [List.getElem_set]
      simp [hij]
    rw [hval, hgj, hgi]
    have hmemi : l[i] ∈ l := List.getElem_mem hi
    have hmemj : l[j] ∈ l := List.getElem_mem hj
    by_cases e1 : l[i] = x <;> by_cases e2 : l[j] = x
    · have c1 : 1 ≤ l.count x := List.one_le_count_iff.mpr (e1 ▸ hmemi)
      simp only [e1, e2, beq_self_eq_true, if_pos]
      omega
    · have c1 : 1 ≤ l.count x := List.one_le_count_iff.mpr (e1 ▸ hmemi)
      simp only [e1, e2, beq_self_eq_true, beq_eq_false_iff_ne.mpr e2,
        if_pos, if_neg, Bool.false_eq_true, not_false_eq_true, if_false]
      omega
    · have c1 : 1 ≤ l.count x := List.one_le_count_iff.mpr (e2 ▸ hmemj)
      simp only [e1, e2, beq_self_eq_true, beq_eq_false_iff_ne.mpr e1,
        if_pos, if_neg, Bool.false_eq_true, not_false_eq_true, if_false]
      omega
    · simp only [beq_eq_false_iff_ne.mpr e1, beq_eq_false_iff_ne.mpr e2,
        Bool.false_eq_true, if_false]
      omega

theorem perm_lswap [DecidableEq α] (d : α) (l : List α) (i j : Nat)
    (hi : i < l.length) (hj : j < l.length) :
    List.Perm (lswap d l i j) l :=
  List.perm_iff_count.mpr (fun x => count_lswap d l i j hi hj x)

theorem lUpF_length (lt : α → α → Bool) (d : α) :
    ∀ (fuel : Nat) (l : List α) (j : Nat),
      (lUpF lt d fuel l j).length = l.length := by
  intro fuel
  induction fuel with
  | zero => intro l j; rfl
  | succ fuel ih =>
    intro l j
    unfold lUpF
    by_cases h0 : j = 0
    · rw [if_pos h0]
    · rw [if_neg h0]
      by_cases hlt : lt (l.getD j d) (l.getD ((j-1)/2) d) = true
      · rw [if_pos hlt, ih, length_lswap]
      · rw [if_neg hlt]

theorem selChild_lt_n (lt : α → α → Bool) (d : α) (l : List α) (i n : Nat)
    (h1 : 2*i+1 < n) : selChild lt d l i n < n := by
  unfold selChild
  split
  · rename_i hsel
    simp only [Bool.and_eq_true, decide_eq_true_eq] at hsel
    exact hsel.1
  · exact h1

theorem selChild_gt (lt : α → α → Bool) (d : α) (l : List α) (i n : Nat) :
    i < selChild lt d l i n := by
  unfold selChild
  split <;> omega

theorem selChild_parent (lt : α → α → Bool) (d : α) (l : List α) (i n : Nat) :
    (selChild lt d l i n - 1) / 2 = i := by
  unfold selChild
  split <;> omega

theorem lDownF_length (lt : α → α → Bool) (d : α) :
    ∀ (fuel : Nat) (l : List α) (i n : Nat),
      (lDownF lt d fuel l i n).1.length = l.length := by
  intro fuel
  induction fuel with
  | zero => intro l i n; rfl
  | succ fuel ih =>
    intro l i n
    unfold lDownF
    by_cases h1 : 2*i+1 < n
    · rw [if_pos h1]
      by_cases hlt : lt (l.getD (selChild lt d l i n) d) (l.getD i d) = true
      · rw [if_pos hlt, ih, length_lswap]
      · rw [if_neg hlt]
    · rw [if_neg h1]

theorem lDownF_ge (lt : α → α → Bool) (d : α) :
    ∀ (fuel : Nat) (l : List α) (i n : Nat),
      i ≤ (lDownF lt d fuel l i n).2 := by
  intro fuel
  induction fuel with
  | zero => intro l i n; exact le_refl i
  | succ fuel ih =>
    intro l i n
    unfold lDownF
    by_cases h1 : 2*i+1 < n
    · rw [if_pos h1]
      by_cases hlt : lt (l.getD (selChild lt d l i n) d) (l.getD i d) = true
      · rw [if_pos hlt]
        refine le_trans (le_of_lt (selChild_gt lt d l i n)) (ih _ _ _)
      · rw [if_neg hlt]
    · rw [if_neg h1]

theorem lDownF_stationary (lt : α → α → Bool) (d : α) :
    ∀ (fuel : Nat) (l : List α) (i n : Nat),
      (lDownF lt d fuel l i n).2 = i → (lDownF lt d fuel l i n).1 = l := by
  intro fuel
  induction fuel with
  | zero => intro l i n _; rfl
  | succ fuel ih =>
    intro l i n h
    unfold lDownF at h ⊢
    by_cases h1 : 2*i+1 < n
    · rw [if_pos h1] at h ⊢
      by_cases hlt : lt (l.getD (selChild lt d l i n) d) (l.getD i d) = true
      · rw [if_pos hlt] at h ⊢
        exfalso
        have hge := lDownF_ge lt d fuel
          (lswap d l i (selChild lt d l i n)) (selChild lt d l i n) n
        rw [h] at hge
        have := selChild_gt lt d l i n
        omega
      · rw [if_neg hlt]
    · rw [if_neg h1]

theorem lDownF_untouched (lt : α → α → Bool) (d : α) :
    ∀ (fuel : Nat) (l : List α) (i n k : Nat), n ≤ l.length → n ≤ k →
      (lDownF lt d fuel l i n).1.getD k d = l.getD k d := by
  intro fuel
  induction fuel with
  | zero => intro l i n k _ _; rfl
  | succ fuel ih =>
    intro l i n k hn hk
    unfold lDownF
    by_cases h1 : 2*i+1 < n
    · rw [if_pos h1]
      by_cases hlt : lt (l.getD (selChild lt d l i n) d) (l.getD i d) = true
      · rw [if_pos hlt]
        have hjlt := selChild_lt_n lt d l i n h1
        rw [ih _ _ _ _ (by rw [length_lswap]; exact hn) hk,
          getD_lswap d l _ _ k (by omega) (by omega)]
        rw [if_neg (by omega), if_neg (by omega)]
      · rw [if_neg hlt]
    · rw [if_neg h1]

theorem lUpF_untouched (lt : α → α → Bool) (d : α) :
    ∀ (fuel : Nat) (l : List α) (j k : Nat), j < l.length → j < k →
      (lUpF lt d fuel l j).getD k d = l.getD k d := by
  intro fuel
  induction fuel with
  | zero => intro l j k _ _; rfl
  | succ fuel ih =>
    intro l j k hj hk
    unfold lUpF
    by_cases h0 : j = 0
    · rw [if_pos h0]
    · rw [if_neg h0]
      by_cases hlt : lt (l.getD j d) (l.getD ((j-1)/2) d) = true
      · rw [if_pos hlt,
          ih _ _ _ (by rw [length_lswap]; omega) (by omega),
          getD_lswap d l _ _ k (by omega) hj]
        rw [if_neg (by omega), if_neg (by omega)]
      · rw [if_neg hlt]

theorem lUpF_count [DecidableEq α] (lt : α → α → Bool) (d : α) :
    ∀ (fuel : Nat) (l : List α) (j : Nat) (x : α), j < l.length →
      (lUpF lt d fuel l j).count x = l.count x := by
  intro fuel
  induction fuel with
  | zero => intro l j x _; rfl
  | succ fuel ih =>
    intro l j x hj
    unfold lUpF
    by_cases h0 : j = 0
    · rw [if_pos h0]
    · rw [if_neg h0]
      by_cases hlt : lt (l.getD j d) (l.getD ((j-1)/2) d) = true
      · rw [if_pos hlt, ih _ _ _ (by rw [length_lswap]; omega),
          count_lswap d l _ _ (by omega) hj]
      · rw [if_neg hlt]

theorem lDownF_count [DecidableEq α] (lt : α → α → Bool) (d : α) :
    ∀ (fuel : Nat) (l : List α) (i n : Nat) (x : α), n ≤ l.length →
      (lDownF lt d fuel l i n).1.count x = l.count x := by
  intro fuel
  induction fuel with
  | zero => intro l i n x _; rfl
  | succ fuel ih =>
    intro l i n x hn
    unfold lDownF
    by_cases h1 : 2*i+1 < n
    · rw [if_pos h1]
      by_cases hlt : lt (l.getD (selChild lt d l i n) d) (l.getD i d) = true
      · have hjlt := selChild_lt_n lt d l i n h1
        rw [if_pos hlt, ih _ _ _ _ (by rw [length_lswap]; exact hn),
          count_lswap d l _ _ (by omega) (by omega)]
      · rw [if_neg hlt]
    · rw [if_neg h1]

/-- Invariant of the sift-up loop: ordering can only fail on the edge into
the hole j, and the children of j fit below the parent of j. -/
def UpInvN (lt : α → α → Bool) (d : α) (l : List α) (j n : Nat) : Prop :=
  n ≤ l.length ∧ j < n ∧
  (∀ k, 0 < k → k < n → k ≠ j →
    lt (l.getD k d) (l.getD ((k-1)/2) d) = false) ∧
  (∀ c, c < n → (c-1)/2 = j → 0 < j →
    lt (l.getD c d) (l.getD ((j-1)/2) d) = false)

theorem lUpF_isHeapN {lt : α → α → Bool} {d : α} (hOK : LtOK lt) :
    ∀ (fuel : Nat) (l : List α) (j n : Nat), j + 1 ≤ fuel →
      UpInvN lt d l j n → IsHeapN lt d (lUpF lt d fuel l j) n := by
  intro fuel
  induction fuel with
  | zero => intro l j n hf _; omega
  | succ fuel ih =>
    intro l j n hf hinv
    obtain ⟨hn, hjn, ha, hb⟩ := hinv
    unfold lUpF
    by_cases h0 : j = 0
    · rw [if_pos h0]
      intro k hk0 hkn
      exact ha k hk0 hkn (by omega)
    · rw [if_neg h0]
      by_cases hlt : lt (l.getD j d) (l.getD ((j-1)/2) d) = true
      · rw [if_pos hlt]
        have hjlen : j < l.length := by omega
        have hilen : (j-1)/2 < l.length := by omega
        have hij : (j-1)/2 < j := by omega
        have hval : ∀ m, (lswap d l ((j-1)/2) j).getD m d =
            if m = j then l.getD ((j-1)/2) d
            else if m = (j-1)/2 then l.getD j d
            else l.getD m d := fun m => getD_lswap d l _ j m hilen hjlen
        apply ih _ _ _ (by omega)
        refine ⟨by rw [length_lswap]; exact hn, by omega, ?_, ?_⟩
        · intro k hk0 hkn hki
          rw [hval k, hval ((k-1)/2)]
          by_cases hkj : k = j
          · rw [if_pos hkj, hkj]
            have hpj : ¬ (j-1)/2 = j := by omega
            rw [if_neg hpj, if_pos rfl]
            exact hOK.asymm hlt
          · rw [if_neg hkj]
            have hknotj2 : ¬ k = (j-1)/2 := hki
            rw [if_neg hknotj2]
            by_cases hpk : (k-1)/2 = j
            · rw [if_pos hpk]
              exact hb k hkn hpk (by omega)
            · rw [if_neg hpk]
              by_cases hpk2 : (k-1)/2 = (j-1)/2
              · rw [if_pos hpk2]
                have h1 : lt (l.getD k d) (l.getD ((j-1)/2) d) = false := by
                  have := ha k hk0 hkn hkj
                  rw [hpk2] at this
                  exact this
                cases hq : lt (l.getD k d) (l.getD j d) with
                | false => rfl
                | true =>
                  have := hOK.trans _ _ _ hq hlt
                  rw [h1] at this
                  exact absurd this (by simp)
              · rw [if_neg hpk2]
                exact ha k hk0 hkn hkj
        · intro c hcn hpc hj2
          rw [hval c, hval (((j-1)/2 - 1)/2)]
          have hcgt : (j-1)/2 < c := by omega
          have hcne : ¬ c = (j-1)/2 := by omega
          have hpne1 : ¬ ((j-1)/2 - 1)/2 = j := by omega
          have hpne2 : ¬ ((j-1)/2 - 1)/2 = (j-1)/2 := by omega
          rw [if_neg hpne1, if_neg hpne2, if_neg hcne]
          have hii : lt (l.getD ((j-1)/2) d) (l.getD (((j-1)/2 - 1)/2) d) = false :=
            ha ((j-1)/2) (by omega) (by omega) (by omega)
          by_cases hcj : c = j
          · rw [if_pos hcj]
            exact hii
          · rw [if_neg hcj]
            have hc1 : lt (l.getD c d) (l.getD ((j-1)/2) d) = false := by
              have := ha c (by omega) hcn hcj
              rw [hpc] at this
              exact this
            exact hOK.ntrans _ _ _ hc1 hii
      · rw [if_neg hlt]
        intro k hk0 hkn
        by_cases hkj : k = j
        · rw [hkj]
          simp only [Bool.not_eq_true] at hlt
          exact hlt
        · exact ha k hk0 hkn hkj

theorem selChild_break {lt : α → α → Bool} {d : α} (hOK : LtOK lt)
    (l : List α) (i n : Nat) (h1 : 2*i+1 < n)
    (hbreak : lt (l.getD (selChild lt d l i n) d) (l.getD i d) = false) :
    ∀ c, 0 < c → c < n → (c-1)/2 = i → lt (l.getD c d) (l.getD i d) = false := by
  intro c hc0 hc hp
  have hc2 : c = 2*i+1 ∨ c = 2*i+2 := by omega
  unfold selChild at hbreak
  by_cases hsel : (decide (2*i+2 < n) &&
      lt (l.getD (2*i+2) d) (l.getD (2*i+1) d)) = true
  · rw [if_pos hsel] at hbreak
    simp only [Bool.and_eq_true, decide_eq_true_eq] at hsel
    rcases hc2 with rfl | rfl
    · cases hq : lt (l.getD (2*i+1) d) (l.getD i d) with
      | false => rfl
      | true =>
        have := hOK.trans _ _ _ hsel.2 hq
        rw [hbreak] at this
        exact absurd this (by simp)
    · exact hbreak
  · rw [if_neg hsel] at hbreak
    simp only [Bool.and_eq_true, decide_eq_true_eq, not_and] at hsel
    rcases hc2 with rfl | rfl
    · exact hbreak
    · have hf : lt (l.getD (2*i+2) d) (l.getD (2*i+1) d) = false := by
        cases hy : lt (l.getD (2*i+2) d) (l.getD (2*i+1) d) with
        | false => rfl
        | true => exact absurd hy (hsel hc)
      exact hOK.ntrans _ _ _ hf hbreak

theorem selChild_other {lt : α → α → Bool} {d : α} (hOK : LtOK lt)
    (l : List α) (i n : Nat) (h1 : 2*i+1 < n) :
    ∀ c, 0 < c → c < n → (c-1)/2 = i → c ≠ selChild lt d l i n →
      lt (l.getD c d) (l.getD (selChild lt d l i n) d) = false := by
  intro c hc0 hc hp hne
  have hc2 : c = 2*i+1 ∨ c = 2*i+2 := by omega
  unfold selChild at hne ⊢
  by_cases hsel : (decide (2*i+2 < n) &&
      lt (l.getD (2*i+2) d) (l.getD (2*i+1) d)) = true
  · rw [if_pos hsel] at hne ⊢
    have hsel' := hsel
    simp only [Bool.and_eq_true, decide_eq_true_eq] at hsel'
    rcases hc2 with rfl | rfl
    · exact hOK.asymm hsel'.2
    · exact absurd rfl hne
  · rw [if_neg hsel] at hne ⊢
    simp only [Bool.and_eq_true, decide_eq_true_eq, not_and] at hsel
    rcases hc2 with rfl | rfl
    · exact absurd rfl hne
    · cases hy : lt (l.getD (2*i+2) d) (l.getD (2*i+1) d) with
      | false => rfl
      | true => exact absurd hy (hsel hc)

/-- Invariant of the sift-down loop: ordering can only fail on the edges
out of the hole i, and the children of i fit below the parent of i. -/
def DownInv (lt : α → α → Bool) (d : α) (l : List α) (i n : Nat) : Prop :=
  n ≤ l.length ∧
  (∀ k, 0 < k → k < n → (k-1)/2 ≠ i →
    lt (l.getD k d) (l.getD ((k-1)/2) d) = false) ∧
  (∀ c, c < n → (c-1)/2 = i → 0 < i →
    lt (l.getD c d) (l.getD ((i-1)/2) d) = false)

theorem lDownF_isHeapN {lt : α → α → Bool} {d : α} (hOK : LtOK lt) :
    ∀ (fuel : Nat) (l : List α) (i n : Nat), n - i ≤ fuel →
      DownInv lt d l i n → IsHeapN lt d (lDownF lt d fuel l i n).1 n := by
  intro fuel
  induction fuel with
  | zero =>
    intro l i n hf hinv
    obtain ⟨hn, ha, _⟩ := hinv
    intro k hk0 hkn
    by_cases hpk : (k-1)/2 = i
    · omega
    · exact ha k hk0 hkn hpk
  | succ fuel ih =>
    intro l i n hf hinv
    obtain ⟨hn, ha, hb⟩ := hinv
    unfold lDownF
    by_cases h1 : 2*i+1 < n
    · rw [if_pos h1]
      by_cases hlt : lt (l.getD (selChild lt d l i n) d) (l.getD i d) = true
      · rw [if_pos hlt]
        have hjn := selChild_lt_n lt d l i n h1
        have hji := selChild_gt lt d l i n
        have hjp := selChild_parent lt d l i n
        have hilen : i < l.length := by omega
        have hjlen : selChild lt d l i n < l.length := by omega
        have hval : ∀ m, (lswap d l i (selChild lt d l i n)).getD m d =
            if m = selChild lt d l i n then l.getD i d
            else if m = i then l.getD (selChild lt d l i n) d
            else l.getD m d := fun m => getD_lswap d l i _ m hilen hjlen
        apply ih _ _ _ (by omega)
        refine ⟨by rw [length_lswap]; exact hn, ?_, ?_⟩
        · intro k hk0 hkn hpk
          rw [hval k, hval ((k-1)/2)]
          by_cases hkj : k = selChild lt d l i n
          · rw [if_pos hkj, hkj, hjp]
            have hine : ¬ i = selChild lt d l i n := by omega
            rw [if_neg hine, if_pos rfl]
            exact hOK.asymm hlt
          · rw [if_neg hkj]
            by_cases hki : k = i
            · rw [if_pos hki]
              have hp1 : ¬ (k-1)/2 = selChild lt d l i n := by omega
              have hp2 : ¬ (k-1)/2 = i := by omega
              rw [if_neg hp1, if_neg hp2, hki]
              exact hb (selChild lt d l i n) hjn hjp (by omega)
            · rw [if_neg hki]
              by_cases hpki : (k-1)/2 = i
              · have hp1 : ¬ (k-1)/2 = selChild lt d l i n := by omega
                rw [if_neg hp1, if_pos hpki]
                exact selChild_other hOK l i n h1 k hk0 hkn hpki hkj
              · have hp1 : ¬ (k-1)/2 = selChild lt d l i n := hpk
                rw [if_neg hp1, if_neg hpki]
                exact ha k hk0 hkn hpki
        · intro c hcn hpc hj0
          rw [hval c, hval ((selChild lt d l i n - 1)/2), hjp]
          have hcj : ¬ c = selChild lt d l i n := by omega
          have hci : ¬ c = i := by omega
          have hine : ¬ i = selChild lt d l i n := by omega
          rw [if_neg hcj, if_neg hci, if_neg hine, if_pos rfl]
          have := ha c (by omega) hcn (by omega)
          rw [hpc] at this
          exact this
      · rw [if_neg hlt]
        simp only [Bool.not_eq_true] at hlt
        intro k hk0 hkn
        by_cases hpk : (k-1)/2 = i
        · rw [hpk]
          exact selChild_break hOK l i n h1 hlt k hk0 hkn hpk
        · exact ha k hk0 hkn hpk
    · rw [if_neg h1]
      intro k hk0 hkn
      by_cases hpk : (k-1)/2 = i
      · omega
      · exact ha k hk0 hkn hpk

theorem lDownF_break_children {lt : α → α → Bool} {d : α} (hOK : LtOK lt)
    (fuel : Nat) (l : List α) (i n : Nat) (hfuel : 1 ≤ fuel)
    (hstat : (lDownF lt d fuel l i n).2 = i) :
    ∀ c, 0 < c → c < n → (c-1)/2 = i → lt (l.getD c d) (l.getD i d) = false := by
  cases fuel with
  | zero => omega
  | succ fuel =>
    intro c hc0 hc hp
    unfold lDownF at hstat
    by_cases h1 : 2*i+1 < n
    · rw [if_pos h1] at hstat
      by_cases hlt : lt (l.getD (selChild lt d l i n) d) (l.getD i d) = true
      · rw [if_pos hlt] at hstat
        have hge := lDownF_ge lt d fuel
          (lswap d l i (selChild lt d l i n)) (selChild lt d l i n) n
        have := selChild_gt lt d l i n
        omega
      · rw [if_neg hlt] at hstat
        simp only [Bool.not_eq_true] at hlt
        exact selChild_break hOK l i n h1 hlt c hc0 hc hp
    · omega

/-- Go heap.Fix with an explicit bound: sift down from i within the first
n positions, and sift up from i when the index did not move.  heap.Fix is
this with n the full length; heap.Remove uses it with bound length-1 after
swapping the target with the last element. -/
def lFixN (lt : α → α → Bool) (d : α) (l : List α) (i n : Nat) : List α :=
  if i < (lDownF lt d n l i n).2 then (lDownF lt d n l i n).1
  else lUpF lt d (i+1) (lDownF lt d n l i n).1 i

theorem lFixN_isHeapN {lt : α → α → Bool} {d : α} (hOK : LtOK lt)
    (l : List α) (i n : Nat) (hn : n ≤ l.length) (hi : i < n)
    (hexc : ∀ k, 0 < k → k < n → k ≠ i → (k-1)/2 ≠ i →
      lt (l.getD k d) (l.getD ((k-1)/2) d) = false)
    (hGC : ∀ c, 0 < c → c < n → (c-1)/2 = i → 0 < i →
      lt (l.getD c d) (l.getD ((i-1)/2) d) = false) :
    IsHeapN lt d (lFixN lt d l i n) n := by
  by_cases hup : i = 0 ∨ lt (l.getD i d) (l.getD ((i-1)/2) d) = false
  · have hDI : DownInv lt d l i n := by
      refine ⟨hn, ?_, fun c hcn hpc hi0 => hGC c (by omega) hcn hpc hi0⟩
      intro k hk0 hkn hpk
      by_cases hki : k = i
      · subst hki
        rcases hup with h0 | hok
        · omega
        · exact hok
      · exact hexc k hk0 hkn hki hpk
    have hH := lDownF_isHeapN hOK n l i n (by omega) hDI
    unfold lFixN
    by_cases hmv : i < (lDownF lt d n l i n).2
    · rw [if_pos hmv]
      exact hH
    · rw [if_neg hmv]
      have hge := lDownF_ge lt d n l i n
      have hst2 : (lDownF lt d n l i n).2 = i := by omega
      have hst1 := lDownF_stationary lt d n l i n hst2
      rw [hst1]
      apply lUpF_isHeapN hOK (i+1) l i n (le_refl (i+1))
      refine ⟨hn, hi, ?_, ?_⟩
      · intro k hk0 hkn hki
        by_cases hpk : (k-1)/2 = i
        · rw [hpk]
          exact lDownF_break_children hOK n l i n (by omega) hst2 k hk0 hkn hpk
        · exact hexc k hk0 hkn hki hpk
      · intro c hcn hpc hi0
        exact hGC c (by omega) hcn hpc hi0
  · push_neg at hup
    obtain ⟨hi0, hupB⟩ := hup
    have hi0' : 0 < i := by omega
    have hupB' : lt (l.getD i d) (l.getD ((i-1)/2) d) = true := by
      cases hy : lt (l.getD i d) (l.getD ((i-1)/2) d) with
      | false => exact absurd hy hupB
      | true => rfl
    have hchild : ∀ c, 0 < c → c < n → (c-1)/2 = i →
        lt (l.getD c d) (l.getD i d) = false := by
      intro c hc0 hcn hpc
      cases hy : lt (l.getD c d) (l.getD i d) with
      | false => rfl
      | true =>
        have h2 := hOK.trans _ _ _ hy hupB'
        have h3 := hGC c hc0 hcn hpc hi0'
        rw [h3] at h2
        exact absurd h2 (by simp)
    have hstat : lDownF lt d n l i n = (l, i) := by
      cases n with
      | zero => omega
      | succ m =>
        show lDownF lt d (m+1) l i (m+1) = (l, i)
        unfold lDownF
        by_cases h1 : 2*i+1 < m+1
        · rw [if_pos h1]
          have hj := hchild (selChild lt d l i (m+1))
            (by have := selChild_gt lt d l i (m+1); omega)
            (selChild_lt_n lt d l i (m+1) h1)
            (selChild_parent lt d l i (m+1))
          rw [if_neg (by rw [hj]; simp)]
        · rw [if_neg h1]
    unfold lFixN
    rw [hstat]
    simp only [lt_irrefl, if_false]
    apply lUpF_isHeapN hOK (i+1) l i n (le_refl (i+1))
    refine ⟨hn, hi, ?_, ?_⟩
    · intro k hk0 hkn hki
      by_cases hpk : (k-1)/2 = i
      · rw [hpk]
        exact hchild k hk0 hkn hpk
      · exact hexc k hk0 hkn hki hpk
    · intro c hcn hpc hj0
      exact hGC c (by omega) hcn hpc hj0

theorem getD_dropLast (d : α) (l : List α) (k : Nat) (hk : k < l.length - 1) :
    l.dropLast.getD k d = l.getD k d := by
  rw [List.dropLast_eq_take, List.getD_eq_getElem?_getD,
    List.getD_eq_getElem?_getD, List.getElem?_take_of_lt hk]

theorem lFixN_length (lt : α → α → Bool) (d : α) (l : List α) (i n : Nat) :
    (lFixN lt d l i n).length = l.length := by
  unfold lFixN
  by_cases hmv : i < (lDownF lt d n l i n).2
  · rw [if_pos hmv, lDownF_length]
  · rw [if_neg hmv, lUpF_length, lDownF_length]

/-- Go heap.Push at the list level: append, then sift up from the last
position. -/
def lPush (lt : α → α → Bool) (d : α) (l : List α) (x : α) : List α :=
  lUpF lt d (l.length + 1) (l ++ [x]) l.length

/-- Go heap.Pop at the list level: swap the root with the last element,
sift down over the shortened prefix, then drop the last element. -/
def lPopGo (lt : α → α → Bool) (d : α) (l : List α) : List α :=
  (lDownF lt d (l.length - 1) (lswap d l 0 (l.length - 1)) 0 (l.length - 1)).1.dropLast

/-- Go heap.Remove at the list level: swap the target with the last
element, re-sift from the vacated position over the shortened prefix, then
drop the last element. -/
def lRemoveGo (lt : α → α → Bool) (d : α) (l : List α) (i : Nat) : List α :=
  if l.length - 1 ≠ i then
    (lFixN lt d (lswap d l i (l.length - 1)) i (l.length - 1)).dropLast
  else l.dropLast

theorem lPush_length (lt : α → α → Bool) (d : α) (l : List α) (x : α) :
    (lPush lt d l x).length = l.length + 1 := by
  unfold lPush
  rw [lUpF_length]
  simp

theorem lPush_isHeap {lt : α → α → Bool} {d : α} (hOK : LtOK lt)
    (l : List α) (x : α) (h : IsHeap lt d l) : IsHeap lt d (lPush lt d l x) := by
  have hlen := lPush_length lt d l x
  unfold IsHeap
  rw [hlen]
  unfold lPush
  apply lUpF_isHeapN hOK (l.length + 1) (l ++ [x]) l.length (l.length + 1)
    (le_refl _)
  refine ⟨by simp, by omega, ?_, ?_⟩
  · intro k hk0 hkn hkj
    have hk : k < l.length := by omega
    have hpk : (k-1)/2 < l.length := by omega
    rw [List.getD_append _ _ _ _ hk, List.getD_append _ _ _ _ hpk]
    exact h k hk0 hk
  · intro c hcn hpc hj0
    omega

theorem lPopGo_isHeap {lt : α → α → Bool} {d : α} (hOK : LtOK lt)
    (l : List α) (h : IsHeap lt d l) : IsHeap lt d (lPopGo lt d l) := by
  rcases Nat.eq_zero_or_pos l.length with hlen | hlen
  · unfold IsHeap IsHeapN
    intro j hj0 hjn
    unfold lPopGo at hjn ⊢
    have := lDownF_length lt d (l.length - 1)
      (lswap d l 0 (l.length - 1)) 0 (l.length - 1)
    rw [List.length_dropLast, this, length_lswap] at hjn
    omega
  · have h0len : 0 < l.length := hlen
    have hnlen : l.length - 1 < l.length := by omega
    have hH : IsHeapN lt d (lDownF lt d (l.length - 1)
        (lswap d l 0 (l.length - 1)) 0 (l.length - 1)).1 (l.length - 1) := by
      apply lDownF_isHeapN hOK
      · omega
      · refine ⟨by rw [length_lswap]; omega, ?_, ?_⟩
        · intro k hk0 hkn hpk
          rw [getD_lswap d l 0 (l.length - 1) k h0len hnlen,
            getD_lswap d l 0 (l.length - 1) ((k-1)/2) h0len hnlen]
          rw [if_neg (by omega), if_neg (by omega), if_neg (by omega),
            if_neg (by omega)]
          exact h k hk0 (by omega)
        · intro c hcn hpc hi0
          omega
    unfold IsHeap IsHeapN
    intro j hj0 hjn
    unfold lPopGo at hjn ⊢
    have hlen2 := lDownF_length lt d (l.length - 1)
      (lswap d l 0 (l.length - 1)) 0 (l.length - 1)
    rw [List.length_dropLast, hlen2, length_lswap] at hjn
    rw [getD_dropLast, getD_dropLast]
    · exact hH j hj0 (by omega)
    · rw [hlen2, length_lswap]; omega
    · rw [hlen2, length_lswap]; omega

theorem lRemoveGo_isHeap {lt : α → α → Bool} {d : α} (hOK : LtOK lt)
    (l : List α) (i : Nat) (hi : i < l.length) (h : IsHeap lt d l) :
    IsHeap lt d (lRemoveGo lt d l i) := by
  unfold lRemoveGo
  by_cases hni : l.length - 1 ≠ i
  · rw [if_pos hni]
    have hiln : i < l.length - 1 := by omega
    have hnlen : l.length - 1 < l.length := by omega
    have hlenfix := lFixN_length lt d (lswap d l i (l.length - 1)) i (l.length - 1)
    have hH : IsHeapN lt d (lFixN lt d (lswap d l i (l.length - 1)) i
        (l.length - 1)) (l.length - 1) := by
      apply lFixN_isHeapN hOK
      · rw [length_lswap]; omega
      · exact hiln
      · intro k hk0 hkn hki hpk
        rw [getD_lswap d l i (l.length - 1) k hi hnlen,
          getD_lswap d l i (l.length - 1) ((k-1)/2) hi hnlen]
        rw [if_neg (by omega), if_neg hki, if_neg (by omega), if_neg hpk]
        exact h k hk0 (by omega)
      · intro c hc0 hcn hpc hi0
        rw [getD_lswap d l i (l.length - 1) c hi hnlen,
          getD_lswap d l i (l.length - 1) ((i-1)/2) hi hnlen]
        rw [if_neg (by omega), if_neg (by omega), if_neg (by omega),
          if_neg (by omega)]
        have h1 : lt (l.getD c d) (l.getD i d) = false := by
          have := h c hc0 (by omega)
          rw [hpc] at this
          exact this
        have h2 : lt (l.getD i d) (l.getD ((i-1)/2) d) = false :=
          h i hi0 (by omega)
        exact hOK.ntrans _ _ _ h1 h2
    unfold IsHeap IsHeapN
    intro j hj0 hjn
    rw [List.length_dropLast, hlenfix, length_lswap] at hjn
    rw [getD_dropLast, getD_dropLast]
    · exact hH j hj0 (by omega)
    · rw [hlenfix, length_lswap]; omega
    · rw [hlenfix, length_lswap]; omega
  · rw [if_neg hni]
    unfold IsHeap IsHeapN
    intro j hj0 hjn
    rw [List.length_dropLast] at hjn
    rw [getD_dropLast _ _ _ (by omega), getD_dropLast _ _ _ (by omega)]
    exact h j hj0 (by omega)

end ListHeap

/-! ## The indexed heap (heapImpl) and its operations -/

/-- One entry of the items map: the stored Info value and the tracked
index of its key in the backing array. -/
structure HeapItem where
  obj : Info
  index : Nat
deriving DecidableEq

/-- lessFunc of queue.go. -/
abbrev lessFunc := Info → Info → Bool

/-- heapImpl of queue.go: a map from key to item and index, plus the key
array ordered by the heap invariant, plus the comparator. -/
structure HeapImpl where
  items : String → Option HeapItem
  heap : List String
  less : lessFunc

/-- A throwaway Info used only as the default of out-of-range reads; the
maintained invariants keep every actual read in range. -/
def dummyInfo : Info :=
  { obj := { ns := "", name := "", creationTimestamp := 0
             spec := { podSets := [], queueName := "", admission := none
                       priority := 0 } }
    totalRequests := [], clusterQueue := "" }

/-- Reading the stored Info of a key out of an items map. -/
def objOfFun (m : String → Option HeapItem) (k : String) : Info :=
  match m k with
  | some it => it.obj
  | none => dummyInfo

/-- Reading the stored Info of a key, with the dummy for absent keys. -/
def HeapImpl.objOf (h : HeapImpl) (k : String) : Info := objOfFun h.items k

/-- The stored Info of a key as an Option: tracks both presence and value. -/
def HeapImpl.objOpt (h : HeapImpl) (k : String) : Option Info :=
  (h.items k).map HeapItem.obj

def HeapImpl.len (h : HeapImpl) : Nat := h.heap.length

/-- The backing array seen as the stored Info values in heap order. -/
def HeapImpl.values (h : HeapImpl) : List Info := h.heap.map h.objOf

/-- h.Less i j of the heap interface. -/
def HeapImpl.lessIdx (h : HeapImpl) (i j : Nat) : Bool :=
  h.less (h.objOf (h.heap.getD i "")) (h.objOf (h.heap.getD j ""))

/-- Setting the tracked index of one key inside the items map. -/
def setIndex (m : String → Option HeapItem) (k : String) (i : Nat) :
    String → Option HeapItem :=
  fun k2 => if k2 = k then (m k2).map (fun it => { it with index := i })
    else m k2

/-- h.Swap i j of the heap interface: swap the two keys in the backing
array and update their tracked indices. -/
def HeapImpl.swapIdx (h : HeapImpl) (i j : Nat) : HeapImpl :=
  { h with
    heap := lswap "" h.heap i j
    items := setIndex (setIndex h.items (h.heap.getD j "") i)
      (h.heap.getD i "") j }

/-- Push of the heap interface on heapImpl: record the item with index
len, append the key. -/
def HeapImpl.pushRaw (h : HeapImpl) (x : Info) : HeapImpl :=
  { h with
    items := fun k2 => if k2 = Key x.obj
      then some { obj := x, index := h.heap.length } else h.items k2
    heap := h.heap ++ [Key x.obj] }

/-- Pop of the heap interface on heapImpl: remove the last key from the
array, delete its entry, return its Info. -/
def HeapImpl.popRaw (h : HeapImpl) : Info × HeapImpl :=
  (h.objOf (h.heap.getD (h.heap.length - 1) ""),
    { h with
      heap := h.heap.dropLast
      items := fun k2 => if k2 = h.heap.getD (h.heap.length - 1) "" then none
        else h.items k2 })

/-- The sift-up loop of container/heap running on heapImpl. -/
def HeapImpl.upF : Nat → HeapImpl → Nat → HeapImpl
  | 0, h, _ => h
  | fuel+1, h, j =>
    if j = 0 then h
    else if h.lessIdx j ((j-1)/2) then
      HeapImpl.upF fuel (h.swapIdx ((j-1)/2) j) ((j-1)/2)
    else h

/-- The child that container/heap compares against, on heapImpl. -/
def HeapImpl.selChildI (h : HeapImpl) (i n : Nat) : Nat :=
  if decide (2*i+2 < n) && h.lessIdx (2*i+2) (2*i+1) then 2*i+2 else 2*i+1

/-- The sift-down loop of container/heap running on heapImpl. -/
def HeapImpl.downF : Nat → HeapImpl → Nat → Nat → HeapImpl × Nat
  | 0, h, i, _ => (h, i)
  | fuel+1, h, i, n =>
    if 2*i+1 < n then
      if h.lessIdx (h.selChildI i n) i then
        HeapImpl.downF fuel (h.swapIdx i (h.selChildI i n)) (h.selChildI i n) n
      else (h, i)
    else (h, i)

/-- heap.Push of container/heap: push the item, then sift up from the last
position. -/
def heapPush (h : HeapImpl) (x : Info) : HeapImpl :=
  HeapImpl.upF (h.heap.length + 1) (h.pushRaw x) h.heap.length

/-- The shared sift of heap.Fix and heap.Remove: sift down from i within
the first n positions, sift up from i when the index did not move. -/
def HeapImpl.fixAt (h : HeapImpl) (i n : Nat) : HeapImpl :=
  if i < (HeapImpl.downF n h i n).2 then (HeapImpl.downF n h i n).1
  else HeapImpl.upF (i+1) (HeapImpl.downF n h i n).1 i

/-- heap.Fix of container/heap. -/
def heapFix (h : HeapImpl) (i : Nat) : HeapImpl := h.fixAt i h.heap.length

/-- heap.Pop of container/heap: swap the root with the last element, sift
down over the shortened prefix, then pop the last element. -/
def heapPop (h : HeapImpl) : Info × HeapImpl :=
  ((HeapImpl.downF (h.heap.length - 1) (h.swapIdx 0 (h.heap.length - 1)) 0
    (h.heap.length - 1)).1).popRaw

/-- heap.Remove of container/heap: swap the target with the last element,
re-sift from the vacated position, then pop the last element. -/
def heapRemove (h : HeapImpl) (i : Nat) : Info × HeapImpl :=
  if h.heap.length - 1 ≠ i then
    ((h.swapIdx i (h.heap.length - 1)).fixAt i (h.heap.length - 1)).popRaw
  else h.popRaw

/-- Well-formedness of the heapImpl bookkeeping: distinct keys in the
backing array, every key of the array present in the items map, and every
stored item consistent (its tracked index points at its own key and its
stored Info carries its own key). -/
def HeapImpl.WF (h : HeapImpl) : Prop :=
  h.heap.Nodup ∧
  (∀ k, k ∈ h.heap → ∃ it, h.items k = some it) ∧
  (∀ k it, h.items k = some it →
    it.index < h.heap.length ∧ h.heap.getD it.index "" = k ∧
    Key it.obj.obj = k)

/-! ## Simulation of heapImpl operations by the list-level algorithms -/

theorem objOpt_setIndex (m : String → Option HeapItem) (k : String) (i : Nat)
    (k2 : String) :
    ((setIndex m k i) k2).map HeapItem.obj = (m k2).map HeapItem.obj := by
  unfold setIndex
  by_cases h : k2 = k
  · rw [if_pos h]
    cases m k2 <;> rfl
  · rw [if_neg h]

theorem objOfFun_setIndex (m : String → Option HeapItem) (k : String) (i : Nat)
    (k2 : String) : objOfFun (setIndex m k i) k2 = objOfFun m k2 := by
  unfold objOfFun setIndex
  by_cases h : k2 = k
  · rw [if_pos h]
    cases m k2 <;> rfl
  · rw [if_neg h]

theorem map_lswap {β γ : Type} (f : β → γ) (da : β) (db : γ) (l : List β)
    (i j : Nat) (hi : i < l.length) (hj : j < l.length) :
    (lswap da l i j).map f = lswap db (l.map f) i j := by
  unfold lswap
  rw [List.map_set, List.map_set]
  have e1 : f (l.getD j da) = (l.map f).getD j db := by
    rw [List.getD_eq_getElem _ _ hj, List.getD_eq_getElem _ _ (by simpa using hj),
      List.getElem_map]
  have e2 : f (l.getD i da) = (l.map f).getD i db := by
    rw [List.getD_eq_getElem _ _ hi, List.getD_eq_getElem _ _ (by simpa using hi),
      List.getElem_map]
  rw [e1, e2]

theorem HeapImpl.swapIdx_heap (h : HeapImpl) (i j : Nat) :
    (h.swapIdx i j).heap = lswap "" h.heap i j := rfl

theorem HeapImpl.swapIdx_less (h : HeapImpl) (i j : Nat) :
    (h.swapIdx i j).less = h.less := rfl

theorem HeapImpl.swapIdx_objOpt (h : HeapImpl) (i j : Nat) (k : String) :
    (h.swapIdx i j).objOpt k = h.objOpt k := by
  unfold HeapImpl.objOpt
  show ((setIndex (setIndex h.items _ i) _ j) k).map HeapItem.obj = _
  rw [objOpt_setIndex, objOpt_setIndex]

theorem HeapImpl.swapIdx_objOf (h : HeapImpl) (i j : Nat) :
    (h.swapIdx i j).objOf = h.objOf := by
  funext k
  show objOfFun (setIndex (setIndex h.items _ i) _ j) k = objOfFun h.items k
  rw [objOfFun_setIndex, objOfFun_setIndex]

theorem HeapImpl.swapIdx_len (h : HeapImpl) (i j : Nat) :
    (h.swapIdx i j).len = h.len := by
  show (lswap "" h.heap i j).length = h.heap.length
  exact length_lswap "" h.heap i j

theorem HeapImpl.swapIdx_values (h : HeapImpl) (i j : Nat)
    (hi : i < h.len) (hj : j < h.len) :
    (h.swapIdx i j).values = lswap dummyInfo h.values i j := by
  unfold HeapImpl.values
  rw [HeapImpl.swapIdx_heap, HeapImpl.swapIdx_objOf,
    map_lswap h.objOf "" dummyInfo h.heap i j hi hj]

theorem HeapImpl.swapIdx_count (h : HeapImpl) (i j : Nat)
    (hi : i < h.len) (hj : j < h.len) (s : String) :
    (h.swapIdx i j).heap.count s = h.heap.count s := by
  rw [HeapImpl.swapIdx_heap]
  exact count_lswap "" h.heap i j hi hj s

theorem HeapImpl.swapIdx_items (h : HeapImpl) (i j : Nat) (k : String) :
    (h.swapIdx i j).items k =
      if k = h.heap.getD i "" then
        (h.items k).map (fun it => { it with index := j })
      else if k = h.heap.getD j "" then
        (h.items k).map (fun it => { it with index := i })
      else h.items k := by
  show setIndex (setIndex h.items (h.heap.getD j "") i) (h.heap.getD i "") j k = _
  unfold setIndex
  by_cases e1 : k = h.heap.getD i ""
  · rw [if_pos e1, if_pos e1]
    by_cases e2 : k = h.heap.getD j ""
    · rw [if_pos e2]
      cases h.items k <;> rfl
    · rw [if_neg e2]
  · rw [if_neg e1, if_neg e1]

theorem HeapImpl.swapIdx_WF (h : HeapImpl) (i j : Nat) (hW : h.WF)
    (hi : i < h.len) (hj : j < h.len) : (h.swapIdx i j).WF := by
  obtain ⟨hnd, hdom, hidx⟩ := hW
  have hperm : List.Perm (lswap "" h.heap i j) h.heap :=
    perm_lswap "" h.heap i j hi hj
  have hval : ∀ m, (lswap "" h.heap i j).getD m "" =
      if m = j then h.heap.getD i "" else if m = i then h.heap.getD j ""
      else h.heap.getD m "" := fun m => getD_lswap "" h.heap i j m hi hj
  refine ⟨?_, ?_, ?_⟩
  · rw [HeapImpl.swapIdx_heap]
    exact hperm.symm.nodup hnd
  · intro k hk
    rw [HeapImpl.swapIdx_heap] at hk
    have hk0 : k ∈ h.heap := hperm.mem_iff.mp hk
    obtain ⟨it, hit⟩ := hdom k hk0
    rw [HeapImpl.swapIdx_items]
    by_cases e1 : k = h.heap.getD i ""
    · rw [if_pos e1, hit]
      exact ⟨_, rfl⟩
    · rw [if_neg e1]
      by_cases e2 : k = h.heap.getD j ""
      · rw [if_pos e2, hit]
        exact ⟨_, rfl⟩
      · rw [if_neg e2, hit]
        exact ⟨_, rfl⟩
  · intro k it' hit'
    rw [HeapImpl.swapIdx_items] at hit'
    have hlen : (h.swapIdx i j).heap.length = h.heap.length := by
      rw [HeapImpl.swapIdx_heap]
      exact length_lswap "" h.heap i j
    rw [HeapImpl.swapIdx_heap] at hlen ⊢
    by_cases e1 : k = h.heap.getD i ""
    · rw [if_pos e1] at hit'
      cases horig : h.items k with
      | none => rw [horig] at hit'; exact absurd hit' (by simp)
      | some it =>
        rw [horig] at hit'
        simp only [Option.map_some', Option.some_inj] at hit'
        obtain ⟨_, _, hkey⟩ := hidx k it horig
        rw [← hit']
        refine ⟨by rw [length_lswap]; exact hj, ?_, hkey⟩
        rw [hval j, if_pos rfl]
        exact e1.symm
    · rw [if_neg e1] at hit'
      by_cases e2 : k = h.heap.getD j ""
      · rw [if_pos e2] at hit'
        cases horig : h.items k with
        | none => rw [horig] at hit'; exact absurd hit' (by simp)
        | some it =>
          rw [horig] at hit'
          simp only [Option.map_some', Option.some_inj] at hit'
          obtain ⟨_, _, hkey⟩ := hidx k it horig
          have hij : ¬ i = j := by
            intro hh
            apply e1
            rw [hh]
            exact e2
          rw [← hit']
          refine ⟨by rw [length_lswap]; exact hi, ?_, hkey⟩
          rw [hval i, if_neg hij, if_pos rfl]
          exact e2.symm
      · rw [if_neg e2] at hit'
        obtain ⟨hlt2, hgd, hkey⟩ := hidx k it' hit'
        have hne1 : it'.index ≠ i := by
          intro hh
          apply e1
          rw [← hgd, hh]
        have hne2 : it'.index ≠ j := by
          intro hh
          apply e2
          rw [← hgd, hh]
        refine ⟨by rw [length_lswap]; exact hlt2, ?_, hkey⟩
        rw [hval it'.index, if_neg hne2, if_neg hne1]
        exact hgd

theorem HeapImpl.lessIdx_eq (h : HeapImpl) (a b : Nat)
    (ha : a < h.len) (hb : b < h.len) :
    h.lessIdx a b =
      h.less (h.values.getD a dummyInfo) (h.values.getD b dummyInfo) := by
  unfold HeapImpl.lessIdx
  have e1 : h.values.getD a dummyInfo = h.objOf (h.heap.getD a "") := by
    unfold HeapImpl.values
    rw [List.getD_eq_getElem _ _ (by simpa using ha), List.getElem_map,
      List.getD_eq_getElem _ _ ha]
  have e2 : h.values.getD b dummyInfo = h.objOf (h.heap.getD b "") := by
    unfold HeapImpl.values
    rw [List.getD_eq_getElem _ _ (by simpa using hb), List.getElem_map,
      List.getD_eq_getElem _ _ hb]
  rw [e1, e2]

theorem HeapImpl.selChildI_eq (h : HeapImpl) (i n : Nat)
    (hn : n ≤ h.len) (h1 : 2*i+1 < n) :
    h.selChildI i n = selChild h.less dummyInfo h.values i n := by
  unfold HeapImpl.selChildI selChild
  by_cases hc : 2*i+2 < n
  · rw [HeapImpl.lessIdx_eq h (2*i+2) (2*i+1) (by omega) (by omega)]
  · have hd : decide (2*i+2 < n) = false := by simp [hc]
    rw [hd]
    simp

theorem HeapImpl.upF_sim :
    ∀ (fuel : Nat) (h : HeapImpl) (j : Nat), h.WF → j < h.len →
      (HeapImpl.upF fuel h j).WF ∧
      (HeapImpl.upF fuel h j).values = lUpF h.less dummyInfo fuel h.values j ∧
      (HeapImpl.upF fuel h j).less = h.less ∧
      (∀ k, (HeapImpl.upF fuel h j).objOpt k = h.objOpt k) ∧
      (∀ s, (HeapImpl.upF fuel h j).heap.count s = h.heap.count s) ∧
      (HeapImpl.upF fuel h j).len = h.len := by
  intro fuel
  induction fuel with
  | zero =>
    intro h j hW _
    exact ⟨hW, rfl, rfl, fun _ => rfl, fun _ => rfl, rfl⟩
  | succ fuel ih =>
    intro h j hW hj
    unfold HeapImpl.upF lUpF
    by_cases h0 : j = 0
    · rw [if_pos h0, if_pos h0]
      exact ⟨hW, rfl, rfl, fun _ => rfl, fun _ => rfl, rfl⟩
    · rw [if_neg h0, if_neg h0]
      have hpj : (j-1)/2 < h.len := by omega
      have hcond := HeapImpl.lessIdx_eq h j ((j-1)/2) hj hpj
      by_cases hlt : h.lessIdx j ((j-1)/2) = true
      · rw [if_pos hlt]
        have hlt' : h.less (h.values.getD j dummyInfo)
            (h.values.getD ((j-1)/2) dummyInfo) = true := by
          rw [← hcond]; exact hlt
        rw [if_pos hlt']
        have hWs := HeapImpl.swapIdx_WF h ((j-1)/2) j hW hpj hj
        have hlens := HeapImpl.swapIdx_len h ((j-1)/2) j
        have hvals := HeapImpl.swapIdx_values h ((j-1)/2) j hpj hj
        have hless := HeapImpl.swapIdx_less h ((j-1)/2) j
        obtain ⟨w1, w2, w3, w4, w5, w6⟩ :=
          ih (h.swapIdx ((j-1)/2) j) ((j-1)/2) hWs (by rw [hlens]; omega)
        refine ⟨w1, ?_, ?_, ?_, ?_, ?_⟩
        · rw [w2, hvals, hless]
        · rw [w3, hless]
        · intro k
          rw [w4 k, HeapImpl.swapIdx_objOpt]
        · intro s
          rw [w5 s, HeapImpl.swapIdx_count h ((j-1)/2) j hpj hj s]
        · rw [w6, hlens]
      · rw [if_neg hlt]
        have hlt' : ¬ h.less (h.values.getD j dummyInfo)
            (h.values.getD ((j-1)/2) dummyInfo) = true := by
          rw [← hcond]; exact hlt
        rw [if_neg hlt']
        exact ⟨hW, rfl, rfl, fun _ => rfl, fun _ => rfl, rfl⟩

theorem HeapImpl.downF_sim :
    ∀ (fuel : Nat) (h : HeapImpl) (i n : Nat), h.WF → n ≤ h.len →
      (HeapImpl.downF fuel h i n).1.WF ∧
      (HeapImpl.downF fuel h i n).1.values =
        (lDownF h.less dummyInfo fuel h.values i n).1 ∧
      (HeapImpl.downF fuel h i n).2 =
        (lDownF h.less dummyInfo fuel h.values i n).2 ∧
      (HeapImpl.downF fuel h i n).1.less = h.less ∧
      (∀ k, (HeapImpl.downF fuel h i n).1.objOpt k = h.objOpt k) ∧
      (∀ s, (HeapImpl.downF fuel h i n).1.heap.count s = h.heap.count s) ∧
      (HeapImpl.downF fuel h i n).1.len = h.len := by
  intro fuel
  induction fuel with
  | zero =>
    intro h i n hW _
    exact ⟨hW, rfl, rfl, rfl, fun _ => rfl, fun _ => rfl, rfl⟩
  | succ fuel ih =>
    intro h i n hW hn
    unfold HeapImpl.downF lDownF
    by_cases h1 : 2*i+1 < n
    · rw [if_pos h1, if_pos h1]
      have hsel := HeapImpl.selChildI_eq h i n hn h1
      have hjn : h.selChildI i n < n := by
        rw [hsel]
        exact selChild_lt_n h.less dummyInfo h.values i n h1
      have hji : i < h.selChildI i n := by
        rw [hsel]
        exact selChild_gt h.less dummyInfo h.values i n
      have hcond := HeapImpl.lessIdx_eq h (h.selChildI i n) i
        (by omega) (by omega)
      by_cases hlt : h.lessIdx (h.selChildI i n) i = true
      · rw [if_pos hlt]
        have hlt' : h.less
            (h.values.getD (selChild h.less dummyInfo h.values i n) dummyInfo)
            (h.values.getD i dummyInfo) = true := by
          rw [← hsel, ← hcond]; exact hlt
        rw [if_pos hlt']
        have hWs := HeapImpl.swapIdx_WF h i (h.selChildI i n) hW
          (by omega) (by omega)
        have hlens := HeapImpl.swapIdx_len h i (h.selChildI i n)
        have hvals := HeapImpl.swapIdx_values h i (h.selChildI i n)
          (by omega) (by omega)
        have hless := HeapImpl.swapIdx_less h i (h.selChildI i n)
        obtain ⟨w1, w2, w3, w4, w5, w6, w7⟩ :=
          ih (h.swapIdx i (h.selChildI i n)) (h.selChildI i n) n hWs
            (by rw [hlens]; exact hn)
        refine ⟨w1, ?_, ?_, ?_, ?_, ?_, ?_⟩
        · rw [w2, hvals, hless, hsel]
        · rw [w3, hvals, hless, hsel]
        · rw [w4, hless]
        · intro k
          rw [w5 k, HeapImpl.swapIdx_objOpt]
        · intro s
          rw [w6 s, HeapImpl.swapIdx_count h i (h.selChildI i n)
            (by omega) (by omega) s]
        · rw [w7, hlens]
      · rw [if_neg hlt]
        have hlt' : ¬ h.less
            (h.values.getD (selChild h.less dummyInfo h.values i n) dummyInfo)
            (h.values.getD i dummyInfo) = true := by
          rw [← hsel, ← hcond]; exact hlt
        rw [if_neg hlt']
        exact ⟨hW, rfl, rfl, rfl, fun _ => rfl, fun _ => rfl, rfl⟩
    · rw [if_neg h1, if_neg h1]
      exact ⟨hW, rfl, rfl, rfl, fun _ => rfl, fun _ => rfl, rfl⟩

theorem HeapImpl.values_len (h : HeapImpl) : h.values.length = h.len := by
  unfold HeapImpl.values HeapImpl.len
  exact List.length_map h.heap h.objOf

theorem Key_mem_of_item (h : HeapImpl) (hW : h.WF) (k : String)
    (it : HeapItem) (hit : h.items k = some it) : k ∈ h.heap := by
  obtain ⟨_, _, hidx⟩ := hW
  obtain ⟨hlt, hgd, _⟩ := hidx k it hit
  rw [← hgd, List.getD_eq_getElem _ _ hlt]
  exact List.getElem_mem hlt

theorem HeapImpl.pushRaw_WF (h : HeapImpl) (x : Info) (hW : h.WF)
    (habs : h.items (Key x.obj) = none) : (h.pushRaw x).WF := by
  obtain ⟨hnd, hdom, hidx⟩ := hW
  have hnotmem : Key x.obj ∉ h.heap := by
    intro hmem
    obtain ⟨it, hit⟩ := hdom _ hmem
    rw [habs] at hit
    exact absurd hit (by simp)
  refine ⟨?_, ?_, ?_⟩
  · show (h.heap ++ [Key x.obj]).Nodup
    rw [List.nodup_append]
    refine ⟨hnd, List.nodup_singleton _, ?_⟩
    intro a ha hb
    simp at hb
    rw [hb] at ha
    exact hnotmem ha
  · intro k hk
    show ∃ it, (if k = Key x.obj then some { obj := x, index := h.heap.length }
      else h.items k) = some it
    by_cases e : k = Key x.obj
    · rw [if_pos e]
      exact ⟨_, rfl⟩
    · rw [if_neg e]
      have hk0 : k ∈ h.heap := by
        rcases List.mem_append.mp hk with hk1 | hk1
        · exact hk1
        · simp at hk1
          exact absurd hk1 e
      exact hdom k hk0
  · intro k it' hit'
    show it'.index < (h.heap ++ [Key x.obj]).length ∧
      (h.heap ++ [Key x.obj]).getD it'.index "" = k ∧ Key it'.obj.obj = k
    rw [List.length_append]
    simp only [List.length_singleton]
    by_cases e : k = Key x.obj
    · rw [show (h.pushRaw x).items k = some { obj := x, index := h.heap.length }
        from by show (if k = Key x.obj then _ else _) = _; rw [if_pos e]] at hit'
      rw [Option.some_inj] at hit'
      rw [← hit']
      refine ⟨Nat.lt_succ_self _, ?_, e.symm⟩
      rw [List.getD_eq_getElem?_getD, List.getElem?_append_right (le_refl _)]
      simp [e]
    · rw [show (h.pushRaw x).items k = h.items k
        from by show (if k = Key x.obj then _ else _) = _; rw [if_neg e]] at hit'
      obtain ⟨hlt, hgd, hkey⟩ := hidx k it' hit'
      refine ⟨by omega, ?_, hkey⟩
      rw [List.getD_eq_getElem?_getD, List.getElem?_append_left hlt,
        ← List.getD_eq_getElem?_getD]
      exact hgd

theorem HeapImpl.pushRaw_values (h : HeapImpl) (x : Info) (hW : h.WF)
    (habs : h.items (Key x.obj) = none) :
    (h.pushRaw x).values = h.values ++ [x] := by
  obtain ⟨hnd, hdom, hidx⟩ := hW
  show (h.heap ++ [Key x.obj]).map (h.pushRaw x).objOf = _
  rw [List.map_append]
  congr 1
  · apply List.map_eq_map_iff.mpr ?_ |>.trans rfl
    intro k hk
    have hne : k ≠ Key x.obj := by
      intro e
      obtain ⟨it, hit⟩ := hdom k hk
      rw [e, habs] at hit
      exact absurd hit (by simp)
    show objOfFun (h.pushRaw x).items k = h.objOf k
    unfold objOfFun
    show (match (if k = Key x.obj then _ else h.items k) with
      | some it => it.obj | none => dummyInfo) = _
    rw [if_neg hne]
    rfl
  · show [objOfFun (h.pushRaw x).items (Key x.obj)] = [x]
    unfold objOfFun
    show [(match (if Key x.obj = Key x.obj then some { obj := x, index := h.heap.length }
      else h.items (Key x.obj)) with
      | some it => it.obj | none => dummyInfo)] = [x]
    rw [if_pos rfl]

theorem HeapImpl.pushRaw_len (h : HeapImpl) (x : Info) :
    (h.pushRaw x).len = h.len + 1 := by
  show (h.heap ++ [Key x.obj]).length = h.heap.length + 1
  simp

theorem HeapImpl.pushRaw_objOpt (h : HeapImpl) (x : Info) (k : String) :
    (h.pushRaw x).objOpt k =
      if k = Key x.obj then some x else h.objOpt k := by
  unfold HeapImpl.objOpt
  show ((if k = Key x.obj then some { obj := x, index := h.heap.length }
    else h.items k).map HeapItem.obj) = _
  by_cases e : k = Key x.obj
  · rw [if_pos e, if_pos e]
    rfl
  · rw [if_neg e, if_neg e]

theorem nodup_getD_last_not_mem_dropLast (l : List String) (hnd : l.Nodup)
    (hl : 1 ≤ l.length) : l.getD (l.length - 1) "" ∉ l.dropLast := by
  intro hmem
  obtain ⟨m, hm, hval⟩ := List.mem_iff_getElem.mp hmem
  have hm' : m < l.length - 1 := by
    rw [List.length_dropLast] at hm
    exact hm
  rw [List.getElem_dropLast l m hm] at hval
  rw [List.getD_eq_getElem _ _ (by omega : l.length - 1 < l.length)] at hval
  have := (List.Nodup.getElem_inj_iff hnd).mp hval
  omega

theorem HeapImpl.popRaw_sim (h : HeapImpl) (hW : h.WF) (hlen : 1 ≤ h.len) :
    (h.popRaw).2.WF ∧
    (h.popRaw).2.values = h.values.dropLast ∧
    (h.popRaw).2.less = h.less ∧
    (h.popRaw).2.len = h.len - 1 ∧
    (h.popRaw).1 = h.values.getD (h.len - 1) dummyInfo := by
  obtain ⟨hnd, hdom, hidx⟩ := hW
  have hnotmem := nodup_getD_last_not_mem_dropLast h.heap hnd hlen
  refine ⟨⟨?_, ?_, ?_⟩, ?_, rfl, ?_, ?_⟩
  · exact List.Sublist.nodup (List.dropLast_sublist h.heap) hnd
  · intro k hk
    show ∃ it, (if k = h.heap.getD (h.heap.length - 1) "" then none
      else h.items k) = some it
    have hne : k ≠ h.heap.getD (h.heap.length - 1) "" := by
      intro e
      rw [e] at hk
      exact hnotmem hk
    rw [if_neg hne]
    exact hdom k ((List.dropLast_sublist h.heap).mem hk)
  · intro k it' hit'
    show it'.index < h.heap.dropLast.length ∧
      h.heap.dropLast.getD it'.index "" = k ∧ Key it'.obj.obj = k
    have hne : k ≠ h.heap.getD (h.heap.length - 1) "" := by
      intro e
      rw [show (h.popRaw).2.items k = (if k = h.heap.getD (h.heap.length - 1) ""
        then none else h.items k) from rfl, if_pos e] at hit'
      exact absurd hit' (by simp)
    rw [show (h.popRaw).2.items k = (if k = h.heap.getD (h.heap.length - 1) ""
      then none else h.items k) from rfl, if_neg hne] at hit'
    obtain ⟨hlt, hgd, hkey⟩ := hidx k it' hit'
    have hne2 : it'.index ≠ h.heap.length - 1 := by
      intro e
      rw [e] at hgd
      exact hne hgd.symm
    rw [List.length_dropLast]
    refine ⟨by omega, ?_, hkey⟩
    rw [getD_dropLast _ _ _ (by omega)]
    exact hgd
  · show h.heap.dropLast.map (h.popRaw).2.objOf = (h.heap.map h.objOf).dropLast
    rw [← List.map_dropLast]
    apply List.map_eq_map_iff.mpr
    intro k hk
    have hne : k ≠ h.heap.getD (h.heap.length - 1) "" := by
      intro e
      rw [e] at hk
      exact hnotmem hk
    show objOfFun (h.popRaw).2.items k = h.objOf k
    unfold objOfFun
    show (match (if k = h.heap.getD (h.heap.length - 1) "" then none
      else h.items k) with
      | some it => it.obj | none => dummyInfo) = _
    rw [if_neg hne]
    rfl
  · show h.heap.dropLast.length = h.heap.length - 1
    exact List.length_dropLast h.heap
  · show h.objOf (h.heap.getD (h.heap.length - 1) "") = _
    have e : h.values.getD (h.len - 1) dummyInfo =
        h.objOf (h.heap.getD (h.len - 1) "") := by
      unfold HeapImpl.values
      rw [List.getD_eq_getElem _ _ (by simp [HeapImpl.len] at hlen ⊢; omega),
        List.getElem_map, List.getD_eq_getElem _ _ (by
          simp [HeapImpl.len] at hlen ⊢; omega)]
    rw [e]
    rfl

theorem heapPush_sim (h : HeapImpl) (x : Info) (hW : h.WF)
    (habs : h.items (Key x.obj) = none) :
    (heapPush h x).WF ∧
    (heapPush h x).values = lPush h.less dummyInfo h.values x ∧
    (heapPush h x).less = h.less ∧
    (∀ k, (heapPush h x).objOpt k =
      if k = Key x.obj then some x else h.objOpt k) ∧
    (∀ s, (heapPush h x).heap.count s = (h.heap ++ [Key x.obj]).count s) ∧
    (heapPush h x).len = h.len + 1 := by
  have hWp := HeapImpl.pushRaw_WF h x hW habs
  have hvp := HeapImpl.pushRaw_values h x hW habs
  have hlp := HeapImpl.pushRaw_len h x
  obtain ⟨w1, w2, w3, w4, w5, w6⟩ := HeapImpl.upF_sim (h.heap.length + 1)
    (h.pushRaw x) h.heap.length hWp (by rw [hlp]; exact Nat.lt_succ_self _)
  unfold heapPush
  refine ⟨w1, ?_, w3, ?_, ?_, ?_⟩
  · rw [w2, hvp]
    show lUpF (h.pushRaw x).less dummyInfo (h.heap.length + 1)
      (h.values ++ [x]) h.heap.length = _
    have hless : (h.pushRaw x).less = h.less := rfl
    rw [hless]
    unfold lPush
    rw [HeapImpl.values_len]
    rfl
  · intro k
    rw [w4 k, HeapImpl.pushRaw_objOpt]
  · intro s
    rw [w5 s]
    rfl
  · rw [w6, hlp]

theorem HeapImpl.fixAt_sim (h : HeapImpl) (i n : Nat) (hW : h.WF)
    (hn : n ≤ h.len) (hi : i < h.len) :
    (h.fixAt i n).WF ∧
    (h.fixAt i n).values = lFixN h.less dummyInfo h.values i n ∧
    (h.fixAt i n).less = h.less ∧
    (∀ k, (h.fixAt i n).objOpt k = h.objOpt k) ∧
    (∀ s, (h.fixAt i n).heap.count s = h.heap.count s) ∧
    (h.fixAt i n).len = h.len := by
  obtain ⟨d1, d2, d3, d4, d5, d6, d7⟩ :=
    HeapImpl.downF_sim n h i n hW hn
  unfold HeapImpl.fixAt lFixN
  rw [d3]
  by_cases hmv : i < (lDownF h.less dummyInfo n h.values i n).2
  · rw [if_pos hmv, if_pos hmv]
    exact ⟨d1, d2, d4, d5, d6, d7⟩
  · rw [if_neg hmv, if_neg hmv]
    obtain ⟨u1, u2, u3, u4, u5, u6⟩ := HeapImpl.upF_sim (i+1)
      (HeapImpl.downF n h i n).1 i d1 (by rw [d7]; exact hi)
    refine ⟨u1, ?_, ?_, ?_, ?_, ?_⟩
    · rw [u2, d2, d4]
    · rw [u3, d4]
    · intro k
      rw [u4 k, d5 k]
    · intro s
      rw [u5 s, d6 s]
    · rw [u6, d7]

theorem heapPop_sim (h : HeapImpl) (hW : h.WF) (hlen : 1 ≤ h.len) :
    (heapPop h).2.WF ∧
    (heapPop h).2.values = lPopGo h.less dummyInfo h.values ∧
    (heapPop h).2.less = h.less ∧
    (heapPop h).2.len = h.len - 1 := by
  have h0 : (0 : Nat) < h.len := hlen
  have hn1 : h.len - 1 < h.len := by omega
  have hWs := HeapImpl.swapIdx_WF h 0 (h.heap.length - 1) hW h0 hn1
  have hvs := HeapImpl.swapIdx_values h 0 (h.heap.length - 1) h0 hn1
  have hls := HeapImpl.swapIdx_less h 0 (h.heap.length - 1)
  have hlns := HeapImpl.swapIdx_len h 0 (h.heap.length - 1)
  obtain ⟨d1, d2, d3, d4, d5, d6, d7⟩ := HeapImpl.downF_sim (h.heap.length - 1)
    (h.swapIdx 0 (h.heap.length - 1)) 0 (h.heap.length - 1) hWs
    (by rw [hlns]; exact Nat.sub_le _ _)
  obtain ⟨p1, p2, p3, p4, p5⟩ := HeapImpl.popRaw_sim
    (HeapImpl.downF (h.heap.length - 1) (h.swapIdx 0 (h.heap.length - 1)) 0
      (h.heap.length - 1)).1 d1 (by rw [d7, hlns]; exact hlen)
  refine ⟨p1, ?_, ?_, ?_⟩
  · show (HeapImpl.downF (h.heap.length - 1) (h.swapIdx 0 (h.heap.length - 1)) 0
      (h.heap.length - 1)).1.popRaw.2.values = _
    rw [p2, d2, hvs, hls]
    unfold lPopGo
    rw [HeapImpl.values_len]
    rfl
  · show (HeapImpl.downF (h.heap.length - 1) (h.swapIdx 0 (h.heap.length - 1)) 0
      (h.heap.length - 1)).1.popRaw.2.less = _
    rw [p3, d4, hls]
  · show (HeapImpl.downF (h.heap.length - 1) (h.swapIdx 0 (h.heap.length - 1)) 0
      (h.heap.length - 1)).1.popRaw.2.len = _
    rw [p4, d7, hlns]

theorem heapRemove_sim (h : HeapImpl) (i : Nat) (hW : h.WF) (hi : i < h.len) :
    (heapRemove h i).2.WF ∧
    (heapRemove h i).2.values = lRemoveGo h.less dummyInfo h.values i ∧
    (heapRemove h i).2.less = h.less ∧
    (heapRemove h i).2.len = h.len - 1 := by
  have hlen : 1 ≤ h.len := by omega
  unfold heapRemove lRemoveGo
  have hvl : h.values.length = h.len := HeapImpl.values_len h
  by_cases hni : h.heap.length - 1 ≠ i
  · rw [if_pos hni, if_pos (by rw [hvl]; exact hni)]
    have hn1 : h.len - 1 < h.len := by omega
    have hWs := HeapImpl.swapIdx_WF h i (h.heap.length - 1) hW hi hn1
    have hvs := HeapImpl.swapIdx_values h i (h.heap.length - 1) hi hn1
    have hls := HeapImpl.swapIdx_less h i (h.heap.length - 1)
    have hlns := HeapImpl.swapIdx_len h i (h.heap.length - 1)
    obtain ⟨f1, f2, f3, f4, f5, f6⟩ := HeapImpl.fixAt_sim
      (h.swapIdx i (h.heap.length - 1)) i (h.heap.length - 1) hWs
      (by rw [hlns]; exact Nat.sub_le _ _) (by rw [hlns]; exact hi)
    obtain ⟨p1, p2, p3, p4, p5⟩ := HeapImpl.popRaw_sim
      ((h.swapIdx i (h.heap.length - 1)).fixAt i (h.heap.length - 1)) f1
      (by rw [f6, hlns]; exact hlen)
    refine ⟨p1, ?_, ?_, ?_⟩
    · rw [p2, f2, hvs, hls, hvl]
      rfl
    · rw [p3, f3, hls]
    · rw [p4, f6, hlns]
  · rw [if_neg hni, if_neg (by rw [hvl]; exact hni)]
    obtain ⟨p1, p2, p3, p4, p5⟩ := HeapImpl.popRaw_sim h hW hlen
    exact ⟨p1, p2, p3, p4⟩

/-! ## Order properties of the strict-FIFO comparator -/

theorem strictFIFO_iff (a b : Info) :
    strictFIFO a b = true ↔
      (Priority b.obj < Priority a.obj ∨
        (Priority a.obj = Priority b.obj ∧
          a.obj.creationTimestamp < b.obj.creationTimestamp)) := by
  unfold strictFIFO
  by_cases h : Priority a.obj = Priority b.obj
  · simp [h]
  · simp [h, gt_iff_lt]

theorem strictFIFO_LtOK : LtOK strictFIFO := by
  refine ⟨?_, ?_, ?_⟩
  · intro a
    cases hy : strictFIFO a a with
    | false => rfl
    | true =>
      have := (strictFIFO_iff a a).mp hy
      omega
  · intro a b c hab hbc
    have h1 := (strictFIFO_iff a b).mp hab
    have h2 := (strictFIFO_iff b c).mp hbc
    apply (strictFIFO_iff a c).mpr
    omega
  · intro a b c hab hbc
    have h1 : ¬ (strictFIFO a b = true) := by rw [hab]; simp
    have h2 : ¬ (strictFIFO b c = true) := by rw [hbc]; simp
    rw [strictFIFO_iff] at h1 h2
    cases hy : strictFIFO a c with
    | false => rfl
    | true =>
      have h3 := (strictFIFO_iff a c).mp hy
      exfalso
      omega

theorem getD_set_lt {α : Type} (d x : α) (l : List α) (i : Nat)
    (hi : i < l.length) (k : Nat) :
    (l.set i x).getD k d = if k = i then x else l.getD k d := by
  rw [List.getD_eq_getElem?_getD, List.getElem?_set]
  by_cases e : i = k
  · rw [if_pos e, if_pos hi, if_pos e.symm]
    rfl
  · rw [if_neg e, if_neg (fun hh => e hh.symm), ← List.getD_eq_getElem?_getD]

/-! ## Replacing the stored value of one key in place -/

/-- The in-place update of PushOrUpdate on an existing item: the stored
Info is replaced, the tracked index kept. -/
def HeapImpl.updateItem (h : HeapImpl) (key : String) (x : Info) (idx : Nat) :
    HeapImpl :=
  { h with items := fun k2 =>
    (if k2 = key then some { obj := x, index := idx } else h.items k2) }

theorem setItem_WF (h : HeapImpl) (key : String) (x : Info) (it : HeapItem)
    (hW : h.WF) (hit : h.items key = some it) (hkeyx : Key x.obj = key) :
    HeapImpl.WF (h.updateItem key x it.index) := by
  obtain ⟨hnd, hdom, hidx⟩ := hW
  obtain ⟨hlt, hgd, _⟩ := hidx key it hit
  refine ⟨hnd, ?_, ?_⟩
  · intro k hk
    show ∃ it2, (if k = key then some { obj := x, index := it.index }
      else h.items k) = some it2
    by_cases e : k = key
    · rw [if_pos e]
      exact ⟨_, rfl⟩
    · rw [if_neg e]
      exact hdom k hk
  · intro k it2 hit2
    show it2.index < h.heap.length ∧ h.heap.getD it2.index "" = k ∧
      Key it2.obj.obj = k
    have hit2' : (if k = key then some { obj := x, index := it.index }
        else h.items k) = some it2 := hit2
    by_cases e : k = key
    · rw [if_pos e] at hit2'
      rw [Option.some_inj] at hit2'
      rw [← hit2']
      exact ⟨hlt, by rw [hgd, e], by rw [hkeyx, e]⟩
    · rw [if_neg e] at hit2'
      exact hidx k it2 hit2'

theorem setItem_values (h : HeapImpl) (key : String) (x : Info) (it : HeapItem)
    (hW : h.WF) (hit : h.items key = some it) :
    (h.updateItem key x it.index).values = h.values.set it.index x := by
  obtain ⟨hnd, hdom, hidx⟩ := hW
  obtain ⟨hlt, hgd, _⟩ := hidx key it hit
  apply List.ext_getElem?
  intro p
  unfold HeapImpl.values
  rw [show (h.updateItem key x it.index).heap = h.heap from rfl]
  rw [List.getElem?_map, List.getElem?_set, List.getElem?_map]
  by_cases hp : p < h.heap.length
  · have hgp : h.heap[p]? = some h.heap[p] := List.getElem?_eq_getElem hp
    rw [hgp]
    by_cases e : it.index = p
    · subst e
      have hkp : h.heap[it.index] = key := by
        rw [← List.getD_eq_getElem h.heap "" hlt]
        exact hgd
      rw [if_pos rfl, if_pos (by rw [List.length_map]; exact hlt)]
      show some (match (if h.heap[it.index] = key
          then some { obj := x, index := it.index }
          else h.items h.heap[it.index]) with
        | some it2 => it2.obj
        | none => dummyInfo) = some x
      rw [if_pos hkp]
    · have hkey2 : h.heap[it.index] = key := by
        rw [← List.getD_eq_getElem h.heap "" hlt]
        exact hgd
      have hkp : h.heap[p] ≠ key := by
        intro hh
        exact e ((List.Nodup.getElem_inj_iff hnd).mp (hkey2.trans hh.symm))
      rw [if_neg e]
      show some (match (if h.heap[p] = key
          then some { obj := x, index := it.index }
          else h.items h.heap[p]) with
        | some it2 => it2.obj
        | none => dummyInfo) = some (h.objOf h.heap[p])
      rw [if_neg hkp]
      rfl
  · have hgp : h.heap[p]? = none := List.getElem?_eq_none (by omega)
    rw [hgp]
    rw [if_neg (by omega : ¬ it.index = p)]
    rfl

theorem setItem_objOpt (h : HeapImpl) (key : String) (x : Info) (idx : Nat)
    (k : String) :
    (h.updateItem key x idx).objOpt k =
      if k = key then some x else h.objOpt k := by
  unfold HeapImpl.objOpt
  show ((if k = key then some { obj := x, index := idx } else h.items k).map
    HeapItem.obj) = _
  by_cases e : k = key
  · rw [if_pos e, if_pos e]
    rfl
  · rw [if_neg e, if_neg e]

/-! ## ClusterQueue -/

/-- Modelled from the spec: the recognized queueing-strategy identifier of
the closed set, currently only strict FIFO (the kueue api constant is not
under the provided sources). -/
def StrictFIFO : String := "StrictFIFO"

/-- Modelled from the spec: the relevant part of the kueue.ClusterQueue
API object, exposing the configured queueing strategy. -/
structure ClusterQueueAPISpec where
  queueingStrategy : String
deriving DecidableEq

structure ClusterQueueAPI where
  spec : ClusterQueueAPISpec
deriving DecidableEq

/-- ClusterQueue is the internal implementation of kueue.ClusterQueue that
holds pending workloads. -/
structure ClusterQueue where
  queueingStrategy : String
  heap : HeapImpl

/-- newClusterQueue: a recognized queueing strategy selects the comparator,
an unrecognized one fails with an invalid-configuration error. -/
def newClusterQueue (cq : ClusterQueueAPI) : Except String ClusterQueue :=
  if cq.spec.queueingStrategy = StrictFIFO then
    Except.ok
      { queueingStrategy := cq.spec.queueingStrategy
        heap := { items := fun _ => none, heap := [], less := strictFIFO } }
  else
    Except.error ("invalid QueueingStrategy " ++ cq.spec.queueingStrategy)

/-- The freshly constructed strict-FIFO ClusterQueue. -/
def emptyClusterQueue : ClusterQueue :=
  { queueingStrategy := StrictFIFO
    heap := { items := fun _ => none, heap := [], less := strictFIFO } }

def ClusterQueue.pushIfNotPresent (cq : ClusterQueue) (info : Info) :
    Bool × ClusterQueue :=
  match cq.heap.items (Key info.obj) with
  | some _ => (false, cq)
  | none => (true, { cq with heap := heapPush cq.heap info })

def ClusterQueue.pushOrUpdate (cq : ClusterQueue) (w : QueuedWorkload) :
    ClusterQueue :=
  match cq.heap.items (Key w) with
  | none => { cq with heap := heapPush cq.heap (NewInfo w) }
  | some item =>
    { cq with
      heap := heapFix (cq.heap.updateItem (Key w) (NewInfo w) item.index)
        item.index }

def ClusterQueue.delete (cq : ClusterQueue) (w : QueuedWorkload) : ClusterQueue :=
  match cq.heap.items (Key w) with
  | some item => { cq with heap := (heapRemove cq.heap item.index).2 }
  | none => cq

def ClusterQueue.pop (cq : ClusterQueue) : Option Info × ClusterQueue :=
  if cq.heap.heap.length = 0 then (none, cq)
  else
    (some (heapPop cq.heap).1, { cq with heap := (heapPop cq.heap).2 })

def ClusterQueue.addFromQueue (cq : ClusterQueue) (q : Queue) :
    Bool × ClusterQueue :=
  q.items.foldl (fun acc kv =>
    ((acc.2.pushIfNotPresent kv.2).1 || acc.1,
      (acc.2.pushIfNotPresent kv.2).2)) (false, cq)

def ClusterQueue.deleteFromQueue (cq : ClusterQueue) (q : Queue) : ClusterQueue :=
  q.items.foldl (fun c kv => c.delete kv.2.obj) cq

/-! ## The ClusterQueue invariant and its preservation -/

/-- The maintained invariant of a ClusterQueue: consistent index
bookkeeping, the heap ordering invariant of the backing array, and a
comparator that is a strict weak order. -/
def ClusterQueue.Inv (cq : ClusterQueue) : Prop :=
  cq.heap.WF ∧ IsHeap cq.heap.less dummyInfo cq.heap.values ∧ LtOK cq.heap.less

theorem emptyClusterQueue_Inv : emptyClusterQueue.Inv := by
  refine ⟨⟨List.nodup_nil, ?_, ?_⟩, ?_, strictFIFO_LtOK⟩
  · intro k hk
    exact absurd hk (List.not_mem_nil k)
  · intro k it hit
    exact absurd hit (by simp [emptyClusterQueue])
  · intro j hj0 hjn
    simp [emptyClusterQueue, HeapImpl.values] at hjn

theorem Inv_pushIfNotPresent (cq : ClusterQueue) (info : Info) (h : cq.Inv) :
    (cq.pushIfNotPresent info).2.Inv := by
  obtain ⟨hW, hH, hL⟩ := h
  unfold ClusterQueue.pushIfNotPresent
  cases hit : cq.heap.items (Key info.obj) with
  | some it => exact ⟨hW, hH, hL⟩
  | none =>
    obtain ⟨w1, w2, w3, _, _, _⟩ := heapPush_sim cq.heap info hW hit
    refine ⟨w1, ?_, ?_⟩
    · show IsHeap (heapPush cq.heap info).less dummyInfo
        (heapPush cq.heap info).values
      rw [w2, w3]
      exact lPush_isHeap hL cq.heap.values info hH
    · show LtOK (heapPush cq.heap info).less
      rw [w3]
      exact hL

theorem Inv_pushOrUpdate (cq : ClusterQueue) (w : QueuedWorkload) (h : cq.Inv) :
    (cq.pushOrUpdate w).Inv := by
  obtain ⟨hW, hH, hL⟩ := h
  unfold ClusterQueue.pushOrUpdate
  cases hit : cq.heap.items (Key w) with
  | none =>
    have habs : cq.heap.items (Key (NewInfo w).obj) = none := hit
    obtain ⟨w1, w2, w3, _, _, _⟩ := heapPush_sim cq.heap (NewInfo w) hW habs
    refine ⟨w1, ?_, ?_⟩
    · show IsHeap (heapPush cq.heap (NewInfo w)).less dummyInfo
        (heapPush cq.heap (NewInfo w)).values
      rw [w2, w3]
      exact lPush_isHeap hL cq.heap.values (NewInfo w) hH
    · show LtOK (heapPush cq.heap (NewInfo w)).less
      rw [w3]
      exact hL
  | some item =>
    have hidxf := hW.2.2 (Key w) item hit
    have hWU := setItem_WF cq.heap (Key w) (NewInfo w) item hW hit rfl
    have hvalU := setItem_values cq.heap (Key w) (NewInfo w) item hW hit
    have hlessU : (cq.heap.updateItem (Key w) (NewInfo w) item.index).less =
      cq.heap.less := rfl
    have hheapU : (cq.heap.updateItem (Key w) (NewInfo w) item.index).heap =
      cq.heap.heap := rfl
    have hvl : cq.heap.values.length = cq.heap.heap.length :=
      HeapImpl.values_len cq.heap
    obtain ⟨f1, f2, f3, f4, f5, f6⟩ := HeapImpl.fixAt_sim
      (cq.heap.updateItem (Key w) (NewInfo w) item.index) item.index
      (cq.heap.updateItem (Key w) (NewInfo w) item.index).heap.length hWU
      (le_refl _) hidxf.1
    refine ⟨f1, ?_, ?_⟩
    · show IsHeap (HeapImpl.fixAt _ item.index _).less dummyInfo
        (HeapImpl.fixAt _ item.index _).values
      rw [f2, f3, hlessU, hvalU, hheapU]
      unfold IsHeap
      rw [lFixN_length, List.length_set, hvl]
      apply lFixN_isHeapN hL
      · rw [List.length_set, hvl]
      · exact hidxf.1
      · intro k hk0 hkn hki hpk
        rw [getD_set_lt dummyInfo (NewInfo w) cq.heap.values item.index
            (by rw [hvl]; exact hidxf.1) k, if_neg hki,
          getD_set_lt dummyInfo (NewInfo w) cq.heap.values item.index
            (by rw [hvl]; exact hidxf.1) ((k-1)/2), if_neg hpk]
        exact hH k hk0 (by rw [HeapImpl.values_len]; exact hkn)
      · intro c hc0 hcn hpc hi0
        rw [getD_set_lt dummyInfo (NewInfo w) cq.heap.values item.index
            (by rw [hvl]; exact hidxf.1) c, if_neg (by omega),
          getD_set_lt dummyInfo (NewInfo w) cq.heap.values item.index
            (by rw [hvl]; exact hidxf.1) ((item.index - 1)/2),
          if_neg (by omega)]
        have h1 : cq.heap.less (cq.heap.values.getD c dummyInfo)
            (cq.heap.values.getD item.index dummyInfo) = false := by
          have := hH c hc0 (by rw [HeapImpl.values_len]; exact hcn)
          rw [hpc] at this
          exact this
        have h2 : cq.heap.less (cq.heap.values.getD item.index dummyInfo)
            (cq.heap.values.getD ((item.index - 1)/2) dummyInfo) = false :=
          hH item.index hi0 (by rw [HeapImpl.values_len]; exact hidxf.1)
        exact hL.ntrans _ _ _ h1 h2
    · show LtOK (HeapImpl.fixAt _ item.index _).less
      rw [f3, hlessU]
      exact hL

theorem Inv_delete (cq : ClusterQueue) (w : QueuedWorkload) (h : cq.Inv) :
    (cq.delete w).Inv := by
  obtain ⟨hW, hH, hL⟩ := h
  unfold ClusterQueue.delete
  cases hit : cq.heap.items (Key w) with
  | none => exact ⟨hW, hH, hL⟩
  | some item =>
    have hidxf := hW.2.2 (Key w) item hit
    obtain ⟨r1, r2, r3, r4⟩ := heapRemove_sim cq.heap item.index hW hidxf.1
    refine ⟨r1, ?_, ?_⟩
    · show IsHeap (heapRemove cq.heap item.index).2.less dummyInfo
        (heapRemove cq.heap item.index).2.values
      rw [r2, r3]
      exact lRemoveGo_isHeap hL cq.heap.values item.index
        (by rw [HeapImpl.values_len]; exact hidxf.1) hH
    · show LtOK (heapRemove cq.heap item.index).2.less
      rw [r3]
      exact hL

theorem Inv_pop (cq : ClusterQueue) (h : cq.Inv) : (cq.pop).2.Inv := by
  obtain ⟨hW, hH, hL⟩ := h
  unfold ClusterQueue.pop
  by_cases hlen : cq.heap.heap.length = 0
  · rw [if_pos hlen]
    exact ⟨hW, hH, hL⟩
  · rw [if_neg hlen]
    obtain ⟨p1, p2, p3, p4⟩ := heapPop_sim cq.heap hW (by
      show 1 ≤ cq.heap.heap.length
      omega)
    refine ⟨p1, ?_, ?_⟩
    · show IsHeap (heapPop cq.heap).2.less dummyInfo (heapPop cq.heap).2.values
      rw [p2, p3]
      exact lPopGo_isHeap hL cq.heap.values hH
    · show LtOK (heapPop cq.heap).2.less
      rw [p3]
      exact hL

/-! ## Claims C7, C9, C10 -/

/-- One ClusterQueue operation, for stating invariants over arbitrary
operation sequences. -/
inductive CQOp where
  | pushIfNotPresent (info : Info)
  | pushOrUpdate (w : QueuedWorkload)
  | delete (w : QueuedWorkload)
  | pop

def applyOp (cq : ClusterQueue) : CQOp → ClusterQueue
  | CQOp.pushIfNotPresent info => (cq.pushIfNotPresent info).2
  | CQOp.pushOrUpdate w => cq.pushOrUpdate w
  | CQOp.delete w => cq.delete w
  | CQOp.pop => (cq.pop).2

def applyOps (cq : ClusterQueue) (ops : List CQOp) : ClusterQueue :=
  ops.foldl applyOp cq

theorem Inv_applyOps (ops : List CQOp) :
    ∀ (cq : ClusterQueue), cq.Inv → (applyOps cq ops).Inv := by
  induction ops with
  | nil => intro cq h; exact h
  | cons op rest ih =>
    intro cq h
    have hstep : (applyOp cq op).Inv := by
      cases op with
      | pushIfNotPresent info => exact Inv_pushIfNotPresent cq info h
      | pushOrUpdate w => exact Inv_pushOrUpdate cq w h
      | delete w => exact Inv_delete cq w h
      | pop => exact Inv_pop cq h
    exact ih (applyOp cq op) hstep

/-- C7: after any sequence of PushIfNotPresent, PushOrUpdate, Delete and
Pop operations on a freshly constructed strict-FIFO ClusterQueue, the
backing array satisfies the binary-heap ordering invariant with respect to
the configured comparator: no non-root position sorts before its parent. -/
theorem c7_heap_invariant (ops : List CQOp) :
    IsHeap (applyOps emptyClusterQueue ops).heap.less dummyInfo
      (applyOps emptyClusterQueue ops).heap.values :=
  (Inv_applyOps ops emptyClusterQueue emptyClusterQueue_Inv).2.1

/-- C9: constructing a ClusterQueue from a definition with an unrecognized
queueing-strategy identifier fails with an invalid-configuration error and
produces no structure; with the strict-FIFO identifier it succeeds and the
comparator of the result is the strict-FIFO ordering. -/
theorem c9_newClusterQueue (api : ClusterQueueAPI) :
    (api.spec.queueingStrategy ≠ StrictFIFO →
      newClusterQueue api =
        Except.error ("invalid QueueingStrategy " ++ api.spec.queueingStrategy)) ∧
    (api.spec.queueingStrategy = StrictFIFO →
      newClusterQueue api = Except.ok
        { queueingStrategy := api.spec.queueingStrategy
          heap := { items := fun _ => none, heap := [], less := strictFIFO } }) := by
  constructor
  · intro h
    unfold newClusterQueue
    rw [if_neg h]
  · intro h
    unfold newClusterQueue
    rw [if_pos h]

/-- Witness for C9: the unrecognized identifier BestEffortFIFO is rejected
and the StrictFIFO identifier is accepted with the strictFIFO comparator. -/
theorem c9_newClusterQueue_witness :
    (newClusterQueue ⟨⟨"BestEffortFIFO"⟩⟩ =
      Except.error ("invalid QueueingStrategy " ++ "BestEffortFIFO")) ∧
    (newClusterQueue ⟨⟨"StrictFIFO"⟩⟩ = Except.ok
      { queueingStrategy := "StrictFIFO"
        heap := { items := fun _ => none, heap := [], less := strictFIFO } }) := by
  constructor
  · exact (c9_newClusterQueue ⟨⟨"BestEffortFIFO"⟩⟩).1 (by decide)
  · exact (c9_newClusterQueue ⟨⟨"StrictFIFO"⟩⟩).2 (by decide)

/-- C10: Pop on a ClusterQueue with zero entries returns the explicit
absent value and leaves the ClusterQueue unchanged. -/
theorem c10_pop_empty (cq : ClusterQueue) (h : cq.heap.heap.length = 0) :
    cq.pop = (none, cq) := by
  unfold ClusterQueue.pop
  rw [if_pos h]

/-- Witness for C10: popping the freshly constructed empty ClusterQueue. -/
theorem c10_pop_empty_witness :
    emptyClusterQueue.heap.heap.length = 0 ∧
    emptyClusterQueue.pop = (none, emptyClusterQueue) :=
  ⟨rfl, c10_pop_empty emptyClusterQueue rfl⟩

/-! ## Claims C6 and C8 -/

theorem pushIfNotPresent_of_present (cq : ClusterQueue) (info : Info)
    (it : HeapItem) (hit : cq.heap.items (Key info.obj) = some it) :
    cq.pushIfNotPresent info = (false, cq) := by
  unfold ClusterQueue.pushIfNotPresent
  rw [hit]

theorem pushIfNotPresent_of_absent (cq : ClusterQueue) (info : Info)
    (hit : cq.heap.items (Key info.obj) = none) :
    cq.pushIfNotPresent info =
      (true, { cq with heap := heapPush cq.heap info }) := by
  unfold ClusterQueue.pushIfNotPresent
  rw [hit]

theorem pushOrUpdate_of_present (cq : ClusterQueue) (w : QueuedWorkload)
    (item : HeapItem) (hit : cq.heap.items (Key w) = some item) :
    cq.pushOrUpdate w = { cq with
      heap := heapFix (cq.heap.updateItem (Key w) (NewInfo w) item.index)
        item.index } := by
  unfold ClusterQueue.pushOrUpdate
  rw [hit]

/-- C6: PushIfNotPresent on a key already present returns false and leaves
the ClusterQueue unchanged, and PushOrUpdate on an existing key leaves
exactly one entry for that key in the backing array, its stored value
replaced by the freshly computed Info. -/
theorem c6_membership_uniqueness :
    (∀ (cq : ClusterQueue) (info : Info) (it : HeapItem),
      cq.heap.items (Key info.obj) = some it →
      cq.pushIfNotPresent info = (false, cq)) ∧
    (∀ (cq : ClusterQueue) (w : QueuedWorkload) (item : HeapItem),
      cq.heap.WF → cq.heap.items (Key w) = some item →
      (cq.pushOrUpdate w).heap.heap.count (Key w) = 1 ∧
      (cq.pushOrUpdate w).heap.objOpt (Key w) = some (NewInfo w)) := by
  constructor
  · intro cq info it hit
    exact pushIfNotPresent_of_present cq info it hit
  · intro cq w item hW hit
    rw [pushOrUpdate_of_present cq w item hit]
    have hidxf := hW.2.2 (Key w) item hit
    have hWU := setItem_WF cq.heap (Key w) (NewInfo w) item hW hit rfl
    obtain ⟨f1, f2, f3, f4, f5, f6⟩ := HeapImpl.fixAt_sim
      (cq.heap.updateItem (Key w) (NewInfo w) item.index) item.index
      (cq.heap.updateItem (Key w) (NewInfo w) item.index).heap.length hWU
      (le_refl _) hidxf.1
    constructor
    · show (heapFix (cq.heap.updateItem (Key w) (NewInfo w) item.index)
        item.index).heap.count (Key w) = 1
      unfold heapFix
      rw [f5 (Key w)]
      show cq.heap.heap.count (Key w) = 1
      exact List.count_eq_one_of_mem hW.1
        (Key_mem_of_item cq.heap hW (Key w) item hit)
    · show (heapFix (cq.heap.updateItem (Key w) (NewInfo w) item.index)
        item.index).objOpt (Key w) = some (NewInfo w)
      unfold heapFix
      rw [f4 (Key w), setItem_objOpt]
      rw [if_pos rfl]

theorem addFromQueue_all_present (items : List (String × Info)) :
    ∀ (b : Bool) (cq : ClusterQueue),
      (∀ p ∈ items, (cq.heap.items (Key p.2.obj)).isSome = true) →
      items.foldl (fun acc kv =>
        ((acc.2.pushIfNotPresent kv.2).1 || acc.1,
          (acc.2.pushIfNotPresent kv.2).2)) (b, cq) = (b, cq) := by
  induction items with
  | nil => intro b cq _; rfl
  | cons p rest ih =>
    intro b cq hall
    rw [List.foldl_cons]
    obtain ⟨it, hit⟩ := Option.isSome_iff_exists.mp (hall p (by simp))
    rw [pushIfNotPresent_of_present cq p.2 it hit]
    simp only [Bool.false_or]
    exact ih b cq (fun p2 hp2 => hall p2 (by simp [hp2]))

theorem addFromQueue_aux (items : List (String × Info)) :
    ∀ (b : Bool) (cq : ClusterQueue), cq.heap.WF →
      (∀ p ∈ items, p.1 = Key p.2.obj) →
      (items.map Prod.fst).Nodup →
      ((items.foldl (fun acc kv =>
          ((acc.2.pushIfNotPresent kv.2).1 || acc.1,
            (acc.2.pushIfNotPresent kv.2).2)) (b, cq)).1
        = (b || !(items.filter
            (fun p => (cq.heap.items (Key p.2.obj)).isNone)).isEmpty)) ∧
      ((items.foldl (fun acc kv =>
          ((acc.2.pushIfNotPresent kv.2).1 || acc.1,
            (acc.2.pushIfNotPresent kv.2).2)) (b, cq)).2.heap.heap.length
        = cq.heap.heap.length + (items.filter
            (fun p => (cq.heap.items (Key p.2.obj)).isNone)).length) := by
  induction items with
  | nil =>
    intro b cq _ _ _
    exact ⟨by simp, by simp⟩
  | cons p rest ih =>
    intro b cq hW hqk hqnd
    simp only [List.map_cons, List.nodup_cons] at hqnd
    rw [List.filter_cons]
    have hstep : (p :: rest).foldl (fun acc kv =>
        ((acc.2.pushIfNotPresent kv.2).1 || acc.1,
          (acc.2.pushIfNotPresent kv.2).2)) (b, cq)
        = rest.foldl (fun acc kv =>
        ((acc.2.pushIfNotPresent kv.2).1 || acc.1,
          (acc.2.pushIfNotPresent kv.2).2))
          ((cq.pushIfNotPresent p.2).1 || b, (cq.pushIfNotPresent p.2).2) := rfl
    rw [hstep]
    cases hit : cq.heap.items (Key p.2.obj) with
    | some it =>
      have hb1 : (cq.pushIfNotPresent p.2).1 = false := by
        rw [pushIfNotPresent_of_present cq p.2 it hit]
      have hb2 : (cq.pushIfNotPresent p.2).2 = cq := by
        rw [pushIfNotPresent_of_present cq p.2 it hit]
      rw [hb1, hb2, Bool.false_or]
      rw [if_neg (by simp)]
      exact ih b cq hW (fun p2 hp2 => hqk p2 (by simp [hp2])) hqnd.2
    | none =>
      have hb1 : (cq.pushIfNotPresent p.2).1 = true := by
        rw [pushIfNotPresent_of_absent cq p.2 hit]
      have hb2 : (cq.pushIfNotPresent p.2).2 =
          { cq with heap := heapPush cq.heap p.2 } := by
        rw [pushIfNotPresent_of_absent cq p.2 hit]
      obtain ⟨w1, w2, w3, w4, w5, w6⟩ := heapPush_sim cq.heap p.2 hW hit
      rw [hb1, hb2, Bool.true_or]
      rw [if_pos (show (Option.isNone (none : Option HeapItem)) = true from rfl)]
      have hpres : ∀ p2 ∈ rest,
          (({ cq with heap := heapPush cq.heap p.2 } :
            ClusterQueue).heap.items (Key p2.2.obj)).isNone
          = (cq.heap.items (Key p2.2.obj)).isNone := by
        intro p2 hp2
        have hkne : Key p2.2.obj ≠ Key p.2.obj := by
          have h1 : p2.1 = Key p2.2.obj := hqk p2 (by simp [hp2])
          have h2 : p.1 = Key p.2.obj := hqk p (by simp)
          intro he
          apply hqnd.1
          rw [h2, ← he, ← h1]
          exact List.mem_map_of_mem Prod.fst hp2
        have ho := w4 (Key p2.2.obj)
        rw [if_neg hkne] at ho
        have e1 : ((heapPush cq.heap p.2).items (Key p2.2.obj)).isNone =
            ((heapPush cq.heap p.2).objOpt (Key p2.2.obj)).isNone := by
          unfold HeapImpl.objOpt
          rw [Option.isNone_map']
        have e2 : (cq.heap.items (Key p2.2.obj)).isNone =
            (cq.heap.objOpt (Key p2.2.obj)).isNone := by
          unfold HeapImpl.objOpt
          rw [Option.isNone_map']
        rw [e1, e2, ho]
      obtain ⟨ih1, ih2⟩ := ih true
        { cq with heap := heapPush cq.heap p.2 } w1
        (fun p2 hp2 => hqk p2 (by simp [hp2])) hqnd.2
      constructor
      · rw [ih1]
        simp
      · rw [ih2, List.filter_congr' hpres]
        show (heapPush cq.heap p.2).heap.length + _ = _
        have hl6 : (heapPush cq.heap p.2).heap.length =
            cq.heap.heap.length + 1 := w6
        rw [hl6]
        simp only [List.length_cons]
        omega

/-- C8: AddFromQueue on a Queue whose items are all already present
returns false and leaves the ClusterQueue unchanged; with at least one
absent item it returns true and grows the index size by exactly the
number of newly added items. -/
theorem c8_addFromQueue (cq : ClusterQueue) (q : Queue) (hW : cq.heap.WF)
    (hqk : ∀ p ∈ q.items, p.1 = Key p.2.obj)
    (hqnd : (q.items.map Prod.fst).Nodup) :
    ((∀ p ∈ q.items, (cq.heap.items (Key p.2.obj)).isSome = true) →
      cq.addFromQueue q = (false, cq)) ∧
    ((∃ p ∈ q.items, cq.heap.items (Key p.2.obj) = none) →
      (cq.addFromQueue q).1 = true ∧
      (cq.addFromQueue q).2.heap.heap.length = cq.heap.heap.length +
        (q.items.filter
          (fun p => (cq.heap.items (Key p.2.obj)).isNone)).length) := by
  constructor
  · intro hall
    exact addFromQueue_all_present q.items false cq hall
  · intro hex
    obtain ⟨p, hp, habs⟩ := hex
    obtain ⟨a1, a2⟩ := addFromQueue_aux q.items false cq hW hqk hqnd
    refine ⟨?_, a2⟩
    show (q.items.foldl (fun acc kv =>
      ((acc.2.pushIfNotPresent kv.2).1 || acc.1,
        (acc.2.pushIfNotPresent kv.2).2)) (false, cq)).1 = true
    rw [a1]
    have hmem : p ∈ q.items.filter
        (fun p2 => (cq.heap.items (Key p2.2.obj)).isNone) := by
      apply List.mem_filter.mpr
      exact ⟨hp, by rw [habs]; rfl⟩
    have hne : ¬ (q.items.filter
        (fun p2 => (cq.heap.items (Key p2.2.obj)).isNone)).isEmpty = true := by
      intro he
      rw [List.isEmpty_iff] at he
      rw [he] at hmem
      exact absurd hmem (List.not_mem_nil p)
    simp only [Bool.false_or]
    cases hy : (q.items.filter
        (fun p2 => (cq.heap.items (Key p2.2.obj)).isNone)).isEmpty with
    | false => rfl
    | true => exact absurd hy hne

/-- Workload used in the C6 witness scenario: an empty pod-set list with
the fixed key ns/w. -/
def c6Workload : QueuedWorkload :=
  { ns := "ns", name := "w", creationTimestamp := 0
    spec := { podSets := [], queueName := "q", admission := none
              priority := 0 } }

/-- A one-element ClusterQueue holding c6Workload, for the C6 witness. -/
def c6Queue0 : ClusterQueue :=
  (emptyClusterQueue.pushIfNotPresent (NewInfo c6Workload)).2

theorem c6_membership_uniqueness_witness :
    c6Queue0.pushIfNotPresent (NewInfo c6Workload) = (false, c6Queue0) ∧
    (c6Queue0.pushOrUpdate c6Workload).heap.heap.count (Key c6Workload) = 1 ∧
    (c6Queue0.pushOrUpdate c6Workload).heap.objOpt (Key c6Workload)
      = some (NewInfo c6Workload) := by
  have hW : c6Queue0.heap.WF :=
    (Inv_pushIfNotPresent emptyClusterQueue (NewInfo c6Workload)
      emptyClusterQueue_Inv).1
  have hit : c6Queue0.heap.items (Key (NewInfo c6Workload).obj) =
      some ⟨NewInfo c6Workload, 0⟩ := rfl
  exact ⟨c6_membership_uniqueness.1 c6Queue0 (NewInfo c6Workload)
      ⟨NewInfo c6Workload, 0⟩ hit,
    (c6_membership_uniqueness.2 c6Queue0 c6Workload
      ⟨NewInfo c6Workload, 0⟩ hW hit).1,
    (c6_membership_uniqueness.2 c6Queue0 c6Workload
      ⟨NewInfo c6Workload, 0⟩ hW hit).2⟩

/-- Workload used in the C8 witness scenario. -/
def c8Workload : QueuedWorkload :=
  { ns := "ns", name := "x", creationTimestamp := 0
    spec := { podSets := [], queueName := "q", admission := none
              priority := 0 } }

/-- A Queue carrying one workload absent from the empty ClusterQueue. -/
def c8Queue : Queue :=
  { clusterQueue := "cq", items := [(Key c8Workload, NewInfo c8Workload)] }

theorem c8_addFromQueue_witness :
    (emptyClusterQueue.addFromQueue c8Queue).1 = true ∧
    (emptyClusterQueue.addFromQueue c8Queue).2.heap.heap.length =
      emptyClusterQueue.heap.heap.length +
        (c8Queue.items.filter
          (fun p => (emptyClusterQueue.heap.items (Key p.2.obj)).isNone)).length := by
  have hW : emptyClusterQueue.heap.WF := emptyClusterQueue_Inv.1
  have hqk : ∀ p ∈ c8Queue.items, p.1 = Key p.2.obj := by decide
  have hqnd : (c8Queue.items.map Prod.fst).Nodup := by decide
  have hex : ∃ p ∈ c8Queue.items,
      emptyClusterQueue.heap.items (Key p.2.obj) = none :=
    ⟨(Key c8Workload, NewInfo c8Workload), by decide, rfl⟩
  exact (c8_addFromQueue emptyClusterQueue c8Queue hW hqk hqnd).2 hex

/-! ## Claim C5 -/

/-- All ways of inserting a fixed element at each position of a list. -/
def insertEverywhere {β : Type} (x : β) : List β → List (List β)
  | [] => [[x]]
  | y :: ys => (x :: y :: ys) :: (insertEverywhere x ys).map (fun zs => y :: zs)

/-- All permutations of a list, computed by structural recursion so the
kernel can evaluate it. -/
def perms {β : Type} : List β → List (List β)
  | [] => [[]]
  | x :: xs => (perms xs).flatMap (insertEverywhere x)

/-- Workload for the C5 scenario: empty pod-set list, the given name,
priority and creation timestamp. -/
def c5Workload (nm : String) (p : Int) (t : Int) : QueuedWorkload :=
  { ns := "ns", name := nm, creationTimestamp := t
    spec := { podSets := [], queueName := "q", admission := none
              priority := p } }

/-- The four C5 workload infos: priority 9 (timestamp 4), two priority-5
workloads with distinct timestamps 1 < 2, and priority 3 (timestamp 3). -/
def c5Infos : List Info :=
  [NewInfo (c5Workload "w9" 9 4), NewInfo (c5Workload "w5a" 5 1),
   NewInfo (c5Workload "w5b" 5 2), NewInfo (c5Workload "w3" 3 3)]

/-- C5: for every one of the 24 insertion orders of the four workloads
with priorities [9, 5, 5, 3] into a strict-FIFO ClusterQueue, popping
repeatedly returns first the priority-9 workload, then the priority-5
workload with the earlier creation timestamp, then the other priority-5
workload, then the priority-3 workload. -/
theorem c5_pop_order :
    (perms c5Infos).length = 24 ∧
    (perms c5Infos).all (fun perm =>
      let cq := perm.foldl (fun c info => (c.pushIfNotPresent info).2)
        emptyClusterQueue
      let p1 := cq.pop
      let p2 := p1.2.pop
      let p3 := p2.2.pop
      let p4 := p3.2.pop
      decide (p1.1.map (fun i => i.obj.name) = some "w9") &&
      decide (p2.1.map (fun i => i.obj.name) = some "w5a") &&
      decide (p3.1.map (fun i => i.obj.name) = some "w5b") &&
      decide (p4.1.map (fun i => i.obj.name) = some "w3")) = true := by
  constructor
  · decide
  · decide

/-! ## Claim C4 -/

/-- C4: the strict-FIFO comparator returns true exactly when the first
workload has strictly greater numeric priority, or priorities are equal
and the first workload has a strictly earlier creation timestamp. -/
theorem c4_strictFIFO_characterization (a b : Info) :
    strictFIFO a b = true ↔
      (Priority b.obj < Priority a.obj ∨
        (Priority a.obj = Priority b.obj ∧
          a.obj.creationTimestamp < b.obj.creationTimestamp)) := by
  unfold strictFIFO
  by_cases h : Priority a.obj = Priority b.obj
  · simp [h]
  · simp [h, gt_iff_lt]

end Kueue
